import Mathlib

/-!
# DuplicateFinder: a verification development for `main.cpp`

The program scans a directory, buckets every regular file by the MD5 digest of
its first 100 KiB, keeps the buckets with more than one file and, on request,
re-buckets the survivors by the digest of their whole content.

Conventions of the embedding

* A byte is its numeric value (`Nat`); a `std::string` is a `List Char`.
* `std::set<T>` is a strictly ascending `List T`, `std::map<K, V>` is a list of
  pairs with strictly ascending keys; the operations below are the ones the
  program calls (`insert`, `erase`, `operator[]`, range insertion, `copy_if`).
* The libraries the program links against are parameters: the streaming digest
  (`MD5_Init`, `MD5_Update`, `MD5_Final`) is a `Digest`, the file system calls
  (`directory_iterator`, `is_directory`, `is_regular_file`, `extension`,
  `ifstream::open`) are the fields of a `FileSystem`. The general statements hold
  for every digest and every file system; the digest of the program is the
  instance `md5Digest`, the MD5 of RFC 1321.
* A file has a content (`FileSystem.content`) and a stream after `open`
  (`FileSystem.open_stream`), which tells what the program can read of it: the
  open may fail, and reading may fail before the end of the file. A read that
  meets a read error extracts nothing (the library leaves `gcount()` at 0 and
  sets badbit). `readsToEnd` says that the stream delivers the whole content.
* A loop whose exit depends on the data is run with a step budget; the value
  `none` means that the budget was used up, and every theorem about a result
  shows that the result is `some _`.
-/

namespace DuplicateFinder

/-! ## Library parameters -/

/-- A byte (`char`, `u_char`), represented by its value. -/
abbrev Byte := Nat

/-- Streaming digest interface of the library (`MD5_CTX`, `MD5_Init`, `MD5_Update`, `MD5_Final`)
together with its streaming contract: feeding two blocks one after the other is feeding their
concatenation, and feeding no byte leaves the context unchanged. -/
structure Digest (H : Type) where
  /-- The context type `MD5_CTX`. -/
  Ctx : Type
  /-- The context after `MD5_Init`. -/
  init : Ctx
  /-- The context after `MD5_Update(&ctx, data, len)`, the list being the `len` bytes at `data`. -/
  update : Ctx → List Byte → Ctx
  /-- The value written by `MD5_Final`. -/
  final : Ctx → H
  update_nil : ∀ c, update c [] = c
  update_append : ∀ c a b, update (update c a) b = update c (a ++ b)

/-- The digest of a byte sequence fed in one piece. -/
def Digest.digest {H : Type} (D : Digest H) (bytes : List Byte) : H :=
  D.final (D.update D.init bytes)

/-- State of a `std::ifstream`: `good` tells that no state bit (eof, fail, bad) is set, `pending`
holds the bytes of the file from the read position up to its end or up to the position at which
reading fails, and `failing` tells which of the two it is: `true` when the pending bytes are
followed by a read error, `false` when they are followed by the end of the file. -/
structure ifstream where
  good : Bool
  pending : List Byte
  failing : Bool
deriving DecidableEq

/-- The call `input.read(buffer, n)`, returning the bytes counted by `gcount()` and the new
stream state. On a stream that is not good nothing is extracted. On a good stream with at least
`n` pending bytes, `n` bytes are extracted. With fewer pending bytes followed by the end of the
file, they are all extracted and the stream stops being good (eofbit, failbit). With fewer
pending bytes followed by a read error, the file buffer throws out of `sgetn`; `read` catches
the exception and sets badbit, `gcount()` stays 0, and the bytes copied to the buffer before
the error are not counted. -/
def ifstream.read (input : ifstream) (n : Nat) : List Byte × ifstream :=
  if input.good then
    if input.failing = true ∧ input.pending.length < n then
      ([], { good := false, pending := input.pending, failing := true })
    else
      (input.pending.take n,
        { good := decide (n ≤ input.pending.length), pending := input.pending.drop n,
          failing := input.failing })
  else
    ([], input)

/-- The file system calls of the program, and the bytes stored in the files. Entries
(`fs::directory_entry`) are identified with their path, of type `P`; they are compared by
path. -/
structure FileSystem (P : Type) where
  /-- The entries yielded by `fs::directory_iterator(startingPath)`, in order. -/
  directory_iterator : List P
  /-- `fs::is_directory(entry)`. -/
  is_directory : P → Bool
  /-- The entries yielded by `fs::recursive_directory_iterator(directory)`, in order. -/
  recursive_directory_iterator : P → List P
  /-- `fs::is_regular_file(entry)`. -/
  is_regular_file : P → Bool
  /-- `entry.path().extension()`. -/
  extension : P → List Char
  /-- The stream after `input.open(file.path().c_str(), std::ios::binary)`. -/
  open_stream : P → ifstream
  /-- The bytes stored in the file, whether or not the program can read them. -/
  content : P → List Byte

/-- The file opens and all its bytes can be read: the stream after `open` is good, its pending
bytes are the content of the file and they are followed by the end of the file. -/
def readsToEnd {P : Type} (fs : FileSystem P) (entry : P) : Prop :=
  fs.open_stream entry = { good := true, pending := fs.content entry, failing := false }

/-! ## `calculateFileHash` -/

/-- `const int smallCheckSize = 100 * 1024;` -/
def smallCheckSize : Nat := 100 * 1024

/-- `const int bufferSize = 10 * 1024;` -/
def bufferSize : Nat := 10 * 1024

/-- Number of values of a `u_int` (32 bits). -/
def u_int_range : Nat := 2 ^ 32

/-- The bytes that the reads of `bufferSize` bytes extract from a stream until it stops being
good: none when it is not good (for instance after a failed `open`); all pending bytes when
they are followed by the end of the file; the complete chunks of `bufferSize` bytes when they
are followed by a read error, since the read that meets the error counts no byte. -/
def ifstream.delivered (input : ifstream) : List Byte :=
  if input.good then
    if input.failing then
      input.pending.take (bufferSize * (input.pending.length / bufferSize))
    else input.pending
  else []

/-- The `while (true)` loop of `calculateFileHash`. `readed` and `length` are `u_int`, so their
arithmetic is taken modulo `2 ^ 32`; the comparison `readed + input.gcount() > size` is made in
`std::streamsize` and is exact. `MD5_Update` is given the first `length` bytes of the buffer;
a run that would ask for more bytes than the last read extracted (bytes of the buffer that
the read did not write) is outside the model and yields `none`, as does a used up budget. -/
def hashLoop {H : Type} (D : Digest H) (size : Nat) (full : Bool) :
    Nat → ifstream → D.Ctx → Nat → Option D.Ctx
  | 0, _, _, _ => none
  | fuel + 1, input, md5, readed =>
    let r := input.read bufferSize
    let gcount := r.1.length
    let length :=
      if readed + gcount > size ∧ full = false then (size + u_int_range - readed) % u_int_range
      else gcount % u_int_range
    if length > gcount then none
    else
      let md5 := D.update md5 (r.1.take length)
      let readed := (readed + length) % u_int_range
      if gcount ≤ 0 ∨ (readed = size ∧ full = false) then some md5
      else hashLoop D size full fuel r.2 md5 readed

/-- `hash calculateFileHash(fs::directory_entry file, u_int size, bool full = false)`. Every pass
through the loop with `gcount() > 0` consumes a byte of the stream, so one pass more than the
number of pending bytes is enough. -/
def calculateFileHash {H P : Type} (D : Digest H) (fs : FileSystem P) (file : P) (size : Nat)
    (full : Bool) : Option H :=
  let input := fs.open_stream file
  (hashLoop D size full (input.pending.length + 1) input D.init 0).map D.final


/-! ## `std::set` and `std::map` -/

/-- `std::set<T>::insert(x)` on the ascending list of the elements. -/
def setInsert {α : Type} [LinearOrder α] (x : α) : List α → List α
  | [] => [x]
  | y :: ys =>
    if x < y then x :: y :: ys
    else if y < x then y :: setInsert x ys
    else y :: ys

/-- `std::set<T>::erase(x)`: the element equal to `x` is removed. -/
def setErase {α : Type} [LinearOrder α] (x : α) (s : List α) : List α :=
  s.filter (fun y => decide (y ≠ x))

/-- `std::set<T>::insert(first, last)`: every element of the range is inserted. -/
def setInsertRange {α : Type} [LinearOrder α] (range : List α) (s : List α) : List α :=
  range.foldl (fun acc x => setInsert x acc) s

/-- `typedef std::map<hash, std::set<fs::directory_entry>> duplicate_map;` -/
abbrev duplicate_map (H P : Type) := List (H × List P)

/-- The set that `m[k]` refers to: the mapped set, or the empty set that `operator[]` creates for
a key that is not in the map. -/
def mapGet {H P : Type} [LinearOrder H] (k : H) : duplicate_map H P → List P
  | [] => []
  | t :: rest => if k = t.1 then t.2 else mapGet k rest

/-- The map after `m[k] = v`: the entry of `k` is replaced, or created at its place in key
order. -/
def mapSet {H P : Type} [LinearOrder H] (k : H) (v : List P) :
    duplicate_map H P → duplicate_map H P
  | [] => [(k, v)]
  | t :: rest =>
    if k < t.1 then (k, v) :: t :: rest
    else if t.1 < k then t :: mapSet k v rest
    else (k, v) :: rest

/-- The statement `duplicates[h].insert(entry);`. -/
def bucketInsert {H P : Type} [LinearOrder H] [LinearOrder P] (h : H) (entry : P)
    (duplicates : duplicate_map H P) : duplicate_map H P :=
  mapSet h (setInsert entry (mapGet h duplicates)) duplicates

/-- The statement `duplicates[h].erase(entry);`. -/
def bucketErase {H P : Type} [LinearOrder H] [LinearOrder P] (h : H) (entry : P)
    (duplicates : duplicate_map H P) : duplicate_map H P :=
  mapSet h (setErase entry (mapGet h duplicates)) duplicates

/-- The `std::copy_if` into an empty map with the predicate `tuple.second.size() > 1`. -/
def keepDuplicates {H P : Type} (m : duplicate_map H P) : duplicate_map H P :=
  m.filter (fun tuple => decide (tuple.2.length > 1))

/-! ## The scan units -/

/-- Body of the loops of `generateDirectoryHashes` and `generateSingleFilesHashes`: a regular file
whose extension is not found in `ignored` is inserted under its hash over `smallCheckSize`. -/
def scanEntry {H P : Type} [LinearOrder H] [LinearOrder P] (D : Digest H) (fs : FileSystem P)
    (ignored : List (List Char)) (duplicates : duplicate_map H P) (entry : P) :
    Option (duplicate_map H P) :=
  if fs.is_regular_file entry = true ∧ fs.extension entry ∉ ignored then
    (calculateFileHash D fs entry smallCheckSize false).map
      (fun h => bucketInsert h entry duplicates)
  else some duplicates

/-- `duplicate_map generateDirectoryHashes(fs::directory_entry directory, ignored)`. -/
def generateDirectoryHashes {H P : Type} [LinearOrder H] [LinearOrder P] (D : Digest H)
    (fs : FileSystem P) (directory : P) (ignored : List (List Char)) :
    Option (duplicate_map H P) :=
  (fs.recursive_directory_iterator directory).foldlM (scanEntry D fs ignored) []

/-- `duplicate_map generateSingleFilesHashes(files, ignored)`. -/
def generateSingleFilesHashes {H P : Type} [LinearOrder H] [LinearOrder P] (D : Digest H)
    (fs : FileSystem P) (files : List P) (ignored : List (List Char)) :
    Option (duplicate_map H P) :=
  files.foldlM (scanEntry D fs ignored) []

/-! ## `findDuplicates` -/

/-- `std::ceil(static_cast<double>(files.size()) / threadNumber)` for `threadNumber ≥ 1`; the
quotient of the two integers is rounded up. -/
def singleBlockSize (count threadNumber : Nat) : Nat :=
  (count + threadNumber - 1) / threadNumber

/-- The vector `filesPart(files.begin() + first, files.begin() + last)`. -/
def filesPart {P : Type} (files : List P) (first last : Nat) : List P :=
  (files.take last).drop first

/-- The loop `for (u_int i = 0; i < threadNumber && i * singleBlockSize < files.size(); i++)`
and the batches it builds. The first argument is `threadNumber - i`, so that it reaches `0`
exactly when `i < threadNumber` fails. The products are formed in `u_long`; they stay below
`files.size() + singleBlockSize`, so none wraps. -/
def fileBatches {P : Type} (files : List P) (blockSize : Nat) : Nat → Nat → List (List P)
  | 0, _ => []
  | remaining + 1, i =>
    if i * blockSize < files.length then
      filesPart files (i * blockSize) (min ((i + 1) * blockSize) files.length)
        :: fileBatches files blockSize remaining (i + 1)
    else []

/-- One job's map merged into `results`: for every tuple of the job,
`set = results[tuple.first]; set.insert(tuple.second.begin(), tuple.second.end());
results[tuple.first] = std::move(set);`. -/
def mergeJob {H P : Type} [LinearOrder H] [LinearOrder P] (results : duplicate_map H P)
    (job : duplicate_map H P) : duplicate_map H P :=
  job.foldl
    (fun acc tuple => mapSet tuple.1 (setInsertRange tuple.2 (mapGet tuple.1 acc)) acc) results

/-- The loop `for (std::future<duplicate_map>& f : jobs)` over the results of the jobs. -/
def mergeJobs {H P : Type} [LinearOrder H] [LinearOrder P] (jobs : List (duplicate_map H P)) :
    duplicate_map H P :=
  jobs.foldl mergeJob []

/-- Body of the inner loop of the full check for one entry of the group with key `key`. -/
def recheckEntry {H P : Type} [LinearOrder H] [LinearOrder P] (D : Digest H) (fs : FileSystem P)
    (key : H) (duplicates : duplicate_map H P) (entry : P) : Option (duplicate_map H P) :=
  (calculateFileHash D fs entry 0 true).map fun result =>
    if result ≠ key then bucketInsert result entry (bucketErase key entry duplicates)
    else duplicates

/-- The inner loop `for (const fs::directory_entry& entry : tuple.second)`. The loop variable
`tuple` of the outer loop has type `const std::pair<hash, std::set<...>>&`, which is not the
map's value type (`std::pair<const hash, ...>`): it is bound to a temporary copy of the map
element, so the entries iterated are those of the copy `snapshot`. -/
def recheckGroup {H P : Type} [LinearOrder H] [LinearOrder P] (D : Digest H) (fs : FileSystem P)
    (key : H) (snapshot : List P) (duplicates : duplicate_map H P) :
    Option (duplicate_map H P) :=
  snapshot.foldlM (recheckEntry D fs key) duplicates

/-- The key at `duplicates.begin()`, or `none` for `end()`. -/
def firstKey {H P : Type} (m : duplicate_map H P) : Option H :=
  m.head?.map Prod.fst

/-- The key reached by incrementing the map iterator that stands at key `k`: the first greater
key of the map as it is at that moment, or `none` for `end()`. -/
def nextKey {H P : Type} [LinearOrder H] (k : H) : duplicate_map H P → Option H
  | [] => none
  | t :: rest => if k < t.1 then some t.1 else nextKey k rest

/-- The outer loop `for (... tuple : duplicates)` of the full check, which runs over the map
while the body inserts into it. `position` is the key the iterator stands at. -/
def fullCheckLoop {H P : Type} [LinearOrder H] [LinearOrder P] (D : Digest H)
    (fs : FileSystem P) : Nat → Option H → duplicate_map H P → Option (duplicate_map H P)
  | _, none, duplicates => some duplicates
  | 0, some _, _ => none
  | fuel + 1, some key, duplicates =>
    match recheckGroup D fs key (mapGet key duplicates) duplicates with
    | none => none
    | some duplicates => fullCheckLoop D fs fuel (nextKey key duplicates) duplicates

/-- The block `if (full) { ... }`: the loop over the candidate map, then the second `copy_if`.
The loop visits keys in strictly ascending order and every key is a key of the candidate map
or the hash of one of its files, which bounds the number of visits. -/
def fullCheck {H P : Type} [LinearOrder H] [LinearOrder P] (D : Digest H) (fs : FileSystem P)
    (duplicates : duplicate_map H P) : Option (duplicate_map H P) :=
  (fullCheckLoop D fs (duplicates.length + (duplicates.map (fun t => t.2.length)).sum)
    (firstKey duplicates) duplicates).map keepDuplicates

/-- The jobs pushed to `jobs`, in order: one per directory met by the `directory_iterator`
loop, then one per batch of the other entries. -/
def scanJobs {H P : Type} [LinearOrder H] [LinearOrder P] (D : Digest H) (fs : FileSystem P)
    (threadNumber : Nat) (ignored : List (List Char)) : List (Option (duplicate_map H P)) :=
  let files := fs.directory_iterator.filter (fun entry => !fs.is_directory entry)
  (fs.directory_iterator.filter (fun entry => fs.is_directory entry)).map
      (fun entry => generateDirectoryHashes D fs entry ignored)
    ++ (fileBatches files (singleBlockSize files.length threadNumber) threadNumber 0).map
      (fun part => generateSingleFilesHashes D fs part ignored)

/-- `duplicate_map findDuplicates(path, full, threadNumber, ignored)`, as a function of the file
system seen from `path`; the value of every future is the value of its job. -/
def findDuplicates {H P : Type} [LinearOrder H] [LinearOrder P] (D : Digest H)
    (fs : FileSystem P) (full : Bool) (threadNumber : Nat) (ignored : List (List Char)) :
    Option (duplicate_map H P) :=
  match (scanJobs D fs threadNumber ignored).allSome with
  | none => none
  | some jobs =>
    let results := mergeJobs jobs
    let duplicates := keepDuplicates results
    if full then fullCheck D fs duplicates else some duplicates

/-! ## Notions used in the statements -/

/-- The hash of the first `smallCheckSize` bytes that the file delivers. -/
def prefixHash {H P : Type} (D : Digest H) (fs : FileSystem P) (entry : P) : H :=
  D.digest ((fs.open_stream entry).delivered.take smallCheckSize)

/-- The hash of all the bytes that the file delivers. -/
def fullHash {H P : Type} (D : Digest H) (fs : FileSystem P) (entry : P) : H :=
  D.digest (fs.open_stream entry).delivered

/-- The test of the scan loops: a regular file whose extension is not in the ignore set. -/
def eligible {P : Type} (fs : FileSystem P) (ignored : List (List Char)) (entry : P) : Prop :=
  fs.is_regular_file entry = true ∧ fs.extension entry ∉ ignored

/-- The entries under the starting path that the scan reaches: what the recursive iterator
yields in every directory of the listing, and the other entries of the listing. -/
def scannedEntries {P : Type} (fs : FileSystem P) : List P :=
  ((fs.directory_iterator.filter (fun entry => fs.is_directory entry)).map
      fs.recursive_directory_iterator).flatten
    ++ fs.directory_iterator.filter (fun entry => !fs.is_directory entry)

/-- The keys of a map, in order. -/
def keys {H P : Type} (m : duplicate_map H P) : List H :=
  m.map Prod.fst

/-- Representation invariant of `std::map<hash, std::set<...>>`: ascending keys, ascending
sets. -/
def Canonical {H P : Type} [LinearOrder H] [LinearOrder P] (m : duplicate_map H P) : Prop :=
  (keys m).Sorted (· < ·) ∧ ∀ t ∈ m, t.2.Sorted (· < ·)


/-- Closed form of `scanEntry`, with the hash written as `prefixHash`. -/
def scanStep {H P : Type} [LinearOrder H] [LinearOrder P] (D : Digest H) (fs : FileSystem P)
    (ignored : List (List Char)) (duplicates : duplicate_map H P) (entry : P) :
    duplicate_map H P :=
  if fs.is_regular_file entry = true ∧ fs.extension entry ∉ ignored then
    bucketInsert (prefixHash D fs entry) entry duplicates
  else duplicates

/-- The entry lists of the jobs of `findDuplicates`, in the order of `jobs`. -/
def scanUnits {P : Type} (fs : FileSystem P) (threadNumber : Nat) : List (List P) :=
  (fs.directory_iterator.filter (fun entry => fs.is_directory entry)).map
      fs.recursive_directory_iterator
    ++ fileBatches (fs.directory_iterator.filter (fun entry => !fs.is_directory entry))
        (singleBlockSize
          (fs.directory_iterator.filter (fun entry => !fs.is_directory entry)).length
          threadNumber)
        threadNumber 0


/-- The map `results` of `findDuplicates` in closed form: the merge of the maps of the jobs. -/
def scanResults {H P : Type} [LinearOrder H] [LinearOrder P] (D : Digest H) (fs : FileSystem P)
    (threadNumber : Nat) (ignored : List (List Char)) : duplicate_map H P :=
  mergeJobs ((scanUnits fs threadNumber).map (fun unit => unit.foldl (scanStep D fs ignored) []))

/-- Closed form of `recheckEntry`, with the hash written as `fullHash`. -/
def recheckStep {H P : Type} [LinearOrder H] [LinearOrder P] (D : Digest H) (fs : FileSystem P)
    (key : H) (duplicates : duplicate_map H P) (entry : P) : duplicate_map H P :=
  if fullHash D fs entry ≠ key then
    bucketInsert (fullHash D fs entry) entry (bucketErase key entry duplicates)
  else duplicates

/-- All the entries of all the groups of a map. -/
def entriesOf {H P : Type} (m : duplicate_map H P) : List P :=
  (m.map Prod.snd).flatten


/-- Every entry stored under key `k` has `k` as the hash of its whole content. -/
def Settled {H P : Type} [LinearOrder H] (D : Digest H) (fs : FileSystem P)
    (m : duplicate_map H P) (k : H) : Prop :=
  ∀ e ∈ mapGet k m, fullHash D fs e = k


/-! ## The digest of the program: MD5 (RFC 1321)

The program links against the library's MD5. The algorithm is written here on natural numbers:
a 32-bit word is a number below `2 ^ 32`, the four state words `A B C D` are packed into one
number, least significant word first, and a 64-byte block is the little-endian number of its
bytes. The function is checked against the test suite of the RFC in `md5_test_suite`. -/

namespace MD5

/-- The per-round shift amounts `s[i]`. -/
def shifts : List Nat :=
  [7, 12, 17, 22, 7, 12, 17, 22, 7, 12, 17, 22, 7, 12, 17, 22,
   5, 9, 14, 20, 5, 9, 14, 20, 5, 9, 14, 20, 5, 9, 14, 20,
   4, 11, 16, 23, 4, 11, 16, 23, 4, 11, 16, 23, 4, 11, 16, 23,
   6, 10, 15, 21, 6, 10, 15, 21, 6, 10, 15, 21, 6, 10, 15, 21]

/-- The constants `K[i] = floor(2^32 * abs(sin(i + 1)))`. -/
def sines : List Nat :=
  [0xd76aa478, 0xe8c7b756, 0x242070db, 0xc1bdceee, 0xf57c0faf, 0x4787c62a, 0xa8304613, 0xfd469501,
   0x698098d8, 0x8b44f7af, 0xffff5bb1, 0x895cd7be, 0x6b901122, 0xfd987193, 0xa679438e, 0x49b40821,
   0xf61e2562, 0xc040b340, 0x265e5a51, 0xe9b6c7aa, 0xd62f105d, 0x02441453, 0xd8a1e681, 0xe7d3fbc8,
   0x21e1cde6, 0xc33707d6, 0xf4d50d87, 0x455a14ed, 0xa9e3e905, 0xfcefa3f8, 0x676f02d9, 0x8d2a4c8a,
   0xfffa3942, 0x8771f681, 0x6d9d6122, 0xfde5380c, 0xa4beea44, 0x4bdecfa9, 0xf6bb4b60, 0xbebfbc70,
   0x289b7ec6, 0xeaa127fa, 0xd4ef3085, 0x04881d05, 0xd9d4d039, 0xe6db99e5, 0x1fa27cf8, 0xc4ac5665,
   0xf4292244, 0x432aff97, 0xab9423a7, 0xfc93a039, 0x655b59c3, 0x8f0ccc92, 0xffeff47d, 0x85845dd1,
   0x6fa87e4f, 0xfe2ce6e0, 0xa3014314, 0x4e0811a1, 0xf7537e82, 0xbd3af235, 0x2ad7d2bb, 0xeb86d391]

/-- Number of values of a 32-bit word. -/
def W : Nat := 4294967296

/-- Left rotation of a 32-bit word. -/
def rotl (x s : Nat) : Nat := ((x <<< s) ||| (x >>> (32 - s))) % W

/-- Bitwise complement of a 32-bit word. -/
def notw (x : Nat) : Nat := W - 1 - x

/-- The auxiliary function of step `i`. -/
def roundF (i b c d : Nat) : Nat :=
  if i < 16 then (b &&& c) ||| (notw b &&& d)
  else if i < 32 then (d &&& b) ||| (notw d &&& c)
  else if i < 48 then b ^^^ c ^^^ d
  else c ^^^ (b ||| notw d)

/-- The index of the message word used in step `i`. -/
def roundG (i : Nat) : Nat :=
  if i < 16 then i
  else if i < 32 then (5 * i + 1) % 16
  else if i < 48 then (3 * i + 5) % 16
  else (7 * i) % 16

/-- The state words packed into one number, `a` least significant. -/
def pack (a b c d : Nat) : Nat := a + W * (b + W * (c + W * d))

/-- Step `i` on block `m` with constant `K[i]` and shift `s[i]`: the state `(A, B, C, D)`
becomes `(D, B + rotl (F + A + K[i] + M[g]) s[i], B, C)`. -/
def step (m : Nat) (st : Nat) (i : Nat) (ks : Nat × Nat) : Nat :=
  let a := st % W
  let b := (st / W) % W
  let c := (st / (W * W)) % W
  let d := (st / (W * W * W)) % W
  let f := (roundF i b c d + a + ks.1 + (m >>> (32 * roundG i)) % W) % W
  pack d ((b + rotl f ks.2) % W) b c

/-- The steps `i, i + 1, ...` of a block, one for every entry of the table of constants and
shifts. -/
def rounds (m : Nat) : List (Nat × Nat) → Nat → Nat → Nat
  | [], _, st => st
  | ks :: rest, i, st => rounds m rest (i + 1) (step m st i ks)

/-- Word-wise addition of two packed states. -/
def addState (s t : Nat) : Nat :=
  pack ((s % W + t % W) % W) (((s / W) % W + (t / W) % W) % W)
    (((s / (W * W)) % W + (t / (W * W)) % W) % W)
    (((s / (W * W * W)) % W + (t / (W * W * W)) % W) % W)

/-- The compression of one block into the state. -/
def compress (st m : Nat) : Nat := addState st (rounds m (sines.zip shifts) 0 st)

/-- Continuation on a number that is evaluated first; `strict x k` is `k x`. -/
def strict {β : Type} (x : Nat) (k : Nat → β) : β :=
  match x with
  | 0 => k 0
  | n + 1 => k (n + 1)

/-- Padding and last compression: `blk` holds the `k < 64` bytes of the unfinished block and `n`
blocks were compressed before. A byte `0x80` is appended, then zero bytes up to 56 modulo 64,
then the length of the message in bits as a 64-bit little-endian number. -/
def finish (st blk k n : Nat) : Nat :=
  let bits := (8 * (64 * n + k)) % 2 ^ 64
  let blk1 := blk + 128 * 256 ^ k
  if k < 56 then compress st (blk1 + bits * 256 ^ 56)
  else compress (compress st blk1) (bits * 256 ^ 56)

/-- The message is taken byte by byte; every 64 bytes the block is compressed. The arguments
are the state, the unfinished block, the number of its bytes and the number of compressed
blocks; the result is what they have become at the end of the message. -/
def absorb : List Nat → Nat → Nat → Nat → Nat → Nat × Nat × Nat × Nat
  | [], st, blk, k, n => (st, blk, k, n)
  | b :: bs, st, blk, k, n =>
    strict (blk + (b % 256) * 256 ^ k) fun blk1 =>
      if k = 63 then
        strict (compress st blk1) fun st1 => strict (n + 1) fun n1 => absorb bs st1 0 0 n1
      else absorb bs st blk1 (k + 1) n

/-- The `n` low bytes of `x`, least significant first. -/
def leBytes : Nat → Nat → List Nat
  | 0, _ => []
  | n + 1, x => (x % 256) :: leBytes n (x / 256)

/-- The number with the given bytes, most significant first. -/
def beNat : List Nat → Nat → Nat
  | [], acc => acc
  | b :: bs, acc => beNat bs (acc * 256 + b)

/-- The initial state of RFC 1321. -/
def initState : Nat := pack 0x67452301 0xefcdab89 0x98badcfe 0x10325476

/-- The digest bytes of a final state: the 16 bytes of the digest are the state words in
little-endian order; they are returned as the number they form most significant byte first, so
that the order of numbers is the lexicographic order of `std::array<u_char, 16>`. -/
def digestOf (s : Nat × Nat × Nat × Nat) : Nat :=
  beNat (leBytes 16 (finish s.1 s.2.1 s.2.2.1 s.2.2.2)) 0

/-- The MD5 digest of a message. -/
def md5 (msg : List Nat) : Nat :=
  digestOf (absorb msg initState 0 0 0)

end MD5

/-- The library's MD5 as a streaming digest: the context stands for the bytes fed so far. -/
def md5Digest : Digest Nat where
  Ctx := List Byte
  init := []
  update := fun ctx data => ctx ++ data
  final := MD5.md5
  update_nil := List.append_nil
  update_append := fun c a b => List.append_assoc c a b


/-! ## The ignore list of `main` -/

/-- `view.find(delimiter)` for `delimiter = ";"`: the index of the first `';'`, or `none` for
`npos`. -/
def findDelimiter : List Char → Option Nat
  | [] => none
  | c :: rest => if c = ';' then some 0 else (findDelimiter rest).map (· + 1)

/-- The loop `while ((pos = view.find(delimiter)) != npos)` of `main` followed by the last
`ignored.insert(view.to_string())`; `delimiter.length()` is 1. Every pass removes at least one
character from the view. -/
def parseIgnoredLoop : Nat → List Char → List (List Char) → Option (List (List Char))
  | 0, _, _ => none
  | fuel + 1, view, ignored =>
    match findDelimiter view with
    | some pos =>
      parseIgnoredLoop fuel (view.drop (pos + 1)) (setInsert (view.take pos) ignored)
    | none => some (setInsert view ignored)

/-- The set `ignored` that `main` builds from the value of `--ignore`. -/
def parseIgnored (ignoredString : List Char) : Option (List (List Char)) :=
  parseIgnoredLoop (ignoredString.length + 1) ignoredString []

/-! ## The admission gate of `findDuplicates` -/

/-- What the threads do to the shared counter. `waiting` counts the units for which `wait` has
not yet pushed a job, `launched` the jobs pushed by `std::async` whose body has not yet run
`threads--`, `scanning` the units that run their scan, `finished` the units whose scan is
over. -/
structure Gate where
  threads : Nat
  waiting : Nat
  launched : Nat
  scanning : Nat
  finished : Nat
deriving DecidableEq

/-- The atomic steps: `launch` is the critical section of `wait` when it finds
`threads != threadNumber`, `enter` is the critical section at the head of a unit, `finish` is
the return of a unit. A pass of `wait` that finds `threads == threadNumber` changes nothing. -/
inductive GateEvent where
  | launch
  | enter
  | finish
deriving DecidableEq

/-- One step of the gate; `none` when the step is not enabled. The counter is a `u_int`. -/
def Gate.step (threadNumber : Nat) (s : Gate) : GateEvent → Option Gate
  | GateEvent.launch =>
    if 0 < s.waiting ∧ s.threads ≠ threadNumber then
      some { s with threads := (s.threads + 1) % u_int_range, waiting := s.waiting - 1,
                    launched := s.launched + 1 }
    else none
  | GateEvent.enter =>
    if 0 < s.launched then
      some { s with threads := (s.threads + u_int_range - 1) % u_int_range,
                    launched := s.launched - 1, scanning := s.scanning + 1 }
    else none
  | GateEvent.finish =>
    if 0 < s.scanning then
      some { s with scanning := s.scanning - 1, finished := s.finished + 1 }
    else none

/-- The state reached by a sequence of steps, `none` when one of them is not enabled. -/
def Gate.run (threadNumber : Nat) : Gate → List GateEvent → Option Gate
  | s, [] => some s
  | s, e :: rest =>
    match Gate.step threadNumber s e with
    | some s' => Gate.run threadNumber s' rest
    | none => none

/-- The state at the start of `findDuplicates` when `units` units are to be run. -/
def Gate.initial (units : Nat) : Gate :=
  { threads := 0, waiting := units, launched := 0, scanning := 0, finished := 0 }

/-- The number of units that have been launched and have not finished their scan. -/
def Gate.active (s : Gate) : Nat :=
  s.launched + s.scanning


/-! ## Example inputs -/

/-- A starting directory with the files `a`, `b`, `c` and the directory `d`, which holds the
files `d/e` and `d/f.tmp`; `a`, `b` and `d/e` have the same three bytes. -/
def sampleFs : FileSystem (List Char) where
  directory_iterator := [['a'], ['b'], ['c'], ['d']]
  is_directory := fun p => decide (p = ['d'])
  recursive_directory_iterator := fun p =>
    if p = ['d'] then [['d', '/', 'e'], ['d', '/', 'f', '.', 't', 'm', 'p']] else []
  is_regular_file := fun p => decide (p ≠ ['d'])
  extension := fun p => if p = ['d', '/', 'f', '.', 't', 'm', 'p'] then ['.', 't', 'm', 'p'] else []
  open_stream := fun p =>
    if p = ['c'] then { good := true, pending := [1, 2, 3, 4], failing := false }
    else if p = ['d'] then { good := false, pending := [], failing := false }
    else { good := true, pending := [1, 2, 3], failing := false }
  content := fun p => if p = ['c'] then [1, 2, 3, 4] else if p = ['d'] then [] else [1, 2, 3]

/-- The first 10240 bytes of the file `c` of `unreadableFs`. -/
def firstChunk : List Byte := List.replicate 10240 97

/-- A directory with three regular files that cannot be read to their end: `a` holds the bytes
`"abc"` and cannot be opened; `b` holds `"abcd"`, opens, and reading fails after three bytes;
`c` holds 10240 bytes `'a'` followed by `"bcd"`, opens, and reading fails after 10242 bytes. -/
def unreadableFs : FileSystem (List Char) where
  directory_iterator := [['a'], ['b'], ['c']]
  is_directory := fun _ => false
  recursive_directory_iterator := fun _ => []
  is_regular_file := fun _ => true
  extension := fun _ => []
  open_stream := fun p =>
    if p = ['a'] then { good := false, pending := [], failing := false }
    else if p = ['b'] then { good := true, pending := [97, 98, 99], failing := true }
    else { good := true, pending := firstChunk ++ [98, 99], failing := true }
  content := fun p =>
    if p = ['a'] then [97, 98, 99]
    else if p = ['b'] then [97, 98, 99, 100]
    else firstChunk ++ [98, 99, 100]

/-- A directory with two regular files of different content, `"u"` and `"v"`, none of which
can be opened (for instance for lack of read permission). -/
def lockedFs : FileSystem (List Char) where
  directory_iterator := [['u'], ['v']]
  is_directory := fun _ => false
  recursive_directory_iterator := fun _ => []
  is_regular_file := fun _ => true
  extension := fun _ => []
  open_stream := fun _ => { good := false, pending := [], failing := false }
  content := fun p => if p = ['u'] then [117] else [118]


/-- The content of the files `A` and `B` of the scenario: 50000 bytes `'x'`. -/
def contentA : List Byte := List.replicate 50000 120

/-- The content of the file `C` of the scenario: 50000 bytes `'x'` followed by one `'y'`. -/
def contentC : List Byte := List.replicate 50000 120 ++ [121]

/-- A starting directory that holds exactly the regular files `A`, `B` and `C`, listed in the
order `listing`. -/
def scenarioFs (listing : List (List Char)) : FileSystem (List Char) where
  directory_iterator := listing
  is_directory := fun _ => false
  recursive_directory_iterator := fun _ => []
  is_regular_file := fun _ => true
  extension := fun _ => []
  open_stream := fun p =>
    if p = ['C'] then { good := true, pending := contentC, failing := false }
    else { good := true, pending := contentA, failing := false }
  content := fun p => if p = ['C'] then contentC else contentA


/-! # Theorems -/

/-! ### Correctness of the hashing loop -/

theorem bufferSize_pos : 0 < bufferSize := by decide

theorem read_fst_length_le (input : ifstream) (n : Nat) : (input.read n).1.length ≤ n := by
  unfold ifstream.read
  split
  · split
    · simp
    · simp
  · simp

theorem read_fst_eq (input : ifstream) :
    (input.read bufferSize).1 = input.delivered.take bufferSize := by
  unfold ifstream.read ifstream.delivered
  by_cases hg : input.good = true
  · rw [if_pos hg, if_pos hg]
    by_cases hf : input.failing = true
    · rw [if_pos hf]
      by_cases hlen : input.pending.length < bufferSize
      · rw [if_pos ⟨hf, hlen⟩, Nat.div_eq_of_lt hlen, Nat.mul_zero, List.take_zero]
        rfl
      · rw [if_neg (fun h => hlen h.2), List.take_take]
        have hq : 0 < input.pending.length / bufferSize :=
          Nat.div_pos (Nat.le_of_not_lt hlen) bufferSize_pos
        have hle : bufferSize ≤ bufferSize * (input.pending.length / bufferSize) :=
          Nat.le_mul_of_pos_right _ hq
        rw [Nat.min_eq_left hle]
    · rw [if_neg (fun h => hf h.1), if_neg hf]
  · rw [if_neg hg, if_neg hg]
    rfl

theorem read_snd_delivered (input : ifstream) :
    (input.read bufferSize).2.delivered
      = if bufferSize ≤ input.delivered.length then input.delivered.drop bufferSize
        else [] := by
  unfold ifstream.read
  by_cases hg : input.good = true
  · rw [if_pos hg]
    by_cases hf : input.failing = true
    · by_cases hlen : input.pending.length < bufferSize
      · rw [if_pos ⟨hf, hlen⟩]
        have hd : input.delivered = [] := by
          unfold ifstream.delivered
          rw [if_pos hg, if_pos hf, Nat.div_eq_of_lt hlen, Nat.mul_zero, List.take_zero]
        rw [hd, if_neg (by rw [List.length_nil]; exact Nat.not_le.mpr bufferSize_pos)]
        rfl
      · rw [if_neg (fun h => hlen h.2)]
        have hge : bufferSize ≤ input.pending.length := Nat.le_of_not_lt hlen
        have hq : 0 < input.pending.length / bufferSize := Nat.div_pos hge bufferSize_pos
        have hmul : bufferSize * (input.pending.length / bufferSize) ≤ input.pending.length :=
          Nat.mul_div_le _ _
        have hsub : (input.pending.length - bufferSize) / bufferSize
            = input.pending.length / bufferSize - 1 := by
          have := Nat.sub_mul_div input.pending.length bufferSize 1 (by simpa using hge)
          simpa using this
        have hd : input.delivered
            = input.pending.take (bufferSize * (input.pending.length / bufferSize)) := by
          unfold ifstream.delivered
          rw [if_pos hg, if_pos hf]
        have hle : bufferSize ≤ bufferSize * (input.pending.length / bufferSize) :=
          Nat.le_mul_of_pos_right _ hq
        rw [hd, List.length_take, Nat.min_eq_left hmul, if_pos hle]
        unfold ifstream.delivered
        simp only [decide_eq_true_eq, hge, if_true, hf, List.length_drop, hsub]
        rw [List.drop_take, Nat.mul_sub, Nat.mul_one]
    · rw [if_neg (fun h => hf h.1)]
      unfold ifstream.delivered
      rw [if_pos hg, if_neg hf]
      by_cases hn : bufferSize ≤ input.pending.length
      · simp [hn, hf]
      · simp [hn, hf]
  · rw [if_neg hg]
    unfold ifstream.delivered
    rw [if_neg hg]
    simp

theorem read_snd_pending_lt (input : ifstream) (n : Nat) (hn : 0 < n)
    (h : 0 < (input.read n).1.length) :
    (input.read n).2.pending.length < input.pending.length := by
  unfold ifstream.read at h ⊢
  split
  · rename_i hg
    rw [if_pos hg] at h
    split
    · rename_i hc
      rw [if_pos hc] at h
      simp at h
    · rename_i hc
      rw [if_neg hc] at h
      simp only [List.length_take] at h
      simp only [List.length_drop]
      omega
  · rename_i hg
    simp [hg] at h

theorem hashLoop_full {H : Type} (D : Digest H) (size : Nat) :
    ∀ (fuel : Nat) (input : ifstream) (md5 : D.Ctx) (readed : Nat),
      input.pending.length < fuel →
      hashLoop D size true fuel input md5 readed = some (D.update md5 input.delivered) := by
  intro fuel
  induction fuel with
  | zero => intro input md5 readed h; omega
  | succ fuel ih =>
    intro input md5 readed hfuel
    have hle := read_fst_length_le input bufferSize
    have hb : bufferSize < u_int_range := by decide
    have hmod : (input.read bufferSize).1.length % u_int_range
        = (input.read bufferSize).1.length := Nat.mod_eq_of_lt (by omega)
    simp only [hashLoop, Bool.true_eq_false, and_false, if_false, hmod, gt_iff_lt,
      lt_irrefl, List.take_length, nonpos_iff_eq_zero, or_false]
    by_cases hg : (input.read bufferSize).1.length = 0
    · rw [if_pos hg]
      have h1 : (input.read bufferSize).1 = [] := List.length_eq_zero.mp hg
      rw [h1, D.update_nil]
      rw [read_fst_eq] at h1
      have h2 : input.delivered = [] := by
        rcases List.take_eq_nil_iff.mp h1 with h | h
        · exact absurd h (by decide)
        · exact h
      rw [h2, D.update_nil]
    · rw [if_neg hg]
      have hlt := read_snd_pending_lt input bufferSize (by decide) (Nat.pos_of_ne_zero hg)
      rw [ih _ _ _ (by omega), D.update_append, read_fst_eq, read_snd_delivered]
      congr 2
      split
      · exact List.take_append_drop _ _
      · rename_i hn
        rw [List.append_nil, List.take_of_length_le (by omega)]

theorem hashLoop_limited {H : Type} (D : Digest H) (size : Nat) (hsize : size < u_int_range) :
    ∀ (fuel : Nat) (input : ifstream) (md5 : D.Ctx) (readed : Nat),
      input.pending.length < fuel → readed ≤ size →
      hashLoop D size false fuel input md5 readed
        = some (D.update md5 (input.delivered.take (size - readed))) := by
  intro fuel
  induction fuel with
  | zero => intro input md5 readed h; omega
  | succ fuel ih =>
    intro input md5 readed hfuel hread
    have hle := read_fst_length_le input bufferSize
    have hb : bufferSize < u_int_range := by decide
    have hmod : (input.read bufferSize).1.length % u_int_range
        = (input.read bufferSize).1.length := Nat.mod_eq_of_lt (by omega)
    have hsub : (size + u_int_range - readed) % u_int_range = size - readed := by
      have : size + u_int_range - readed = (size - readed) + u_int_range := by omega
      rw [this, Nat.add_mod_right, Nat.mod_eq_of_lt (by omega)]
    have hlen : (input.read bufferSize).1.length = min bufferSize input.delivered.length := by
      rw [read_fst_eq, List.length_take]
    simp only [hashLoop, and_true, hmod, hsub, gt_iff_lt, nonpos_iff_eq_zero]
    by_cases hover : size < readed + (input.read bufferSize).1.length
    · -- the chunk reaches past the limit: only `size - readed` of its bytes are fed
      rw [if_pos hover, if_neg (by omega)]
      have hr : (readed + (size - readed)) % u_int_range = size := by
        rw [Nat.mod_eq_of_lt (by omega)]; omega
      rw [hr, if_pos (Or.inr rfl), read_fst_eq, List.take_take]
      congr 3
      omega
    · rw [if_neg hover, if_neg (lt_irrefl _), List.take_length]
      have hr : (readed + (input.read bufferSize).1.length) % u_int_range
          = readed + (input.read bufferSize).1.length := Nat.mod_eq_of_lt (by omega)
      rw [hr]
      by_cases hstop : (input.read bufferSize).1.length = 0
          ∨ readed + (input.read bufferSize).1.length = size
      · rw [if_pos hstop, read_fst_eq]
        congr 2
        rcases hstop with h0 | hs
        · have h1 : input.delivered.take bufferSize = [] := by
            rw [← read_fst_eq]; exact List.length_eq_zero.mp h0
          have h2 : input.delivered = [] := by
            rcases List.take_eq_nil_iff.mp h1 with h | h
            · exact absurd h (by decide)
            · exact h
          simp [h2]
        · by_cases hc : bufferSize ≤ input.delivered.length
          · have : size - readed = bufferSize := by omega
            rw [this]
          · rw [List.take_of_length_le (by omega), List.take_of_length_le (by omega)]
      · rw [if_neg hstop]
        have hpos : 0 < (input.read bufferSize).1.length := by
          rcases Nat.eq_zero_or_pos (input.read bufferSize).1.length with h | h
          · exact absurd (Or.inl h) hstop
          · exact h
        have hlt := read_snd_pending_lt input bufferSize (by decide) hpos
        rw [ih _ _ _ (by omega) (by omega), D.update_append, read_snd_delivered]
        congr 2
        have hfst := read_fst_eq input
        split
        · rename_i hn
          have h1 : size - readed
              = bufferSize + (size - (readed + (input.read bufferSize).1.length)) := by omega
          rw [h1, List.take_add, hfst]
        · rename_i hn
          rw [List.take_nil, List.append_nil, hfst, List.take_of_length_le (by omega),
            List.take_of_length_le (by omega)]

/-- Closed form of `calculateFileHash` on any stream, good or not: the digest of the delivered
bytes, cut at `size` unless `full` is set. -/
theorem calculateFileHash_eq {H P : Type} (D : Digest H) (fs : FileSystem P) (file : P)
    (size : Nat) (full : Bool) (hsize : size < u_int_range) :
    calculateFileHash D fs file size full
      = some (D.digest (if full = true then (fs.open_stream file).delivered
          else (fs.open_stream file).delivered.take size)) := by
  unfold calculateFileHash Digest.digest
  cases full with
  | true => simp [hashLoop_full D size _ _ D.init 0 (Nat.lt_succ_self _)]
  | false =>
    simp [hashLoop_limited D size hsize _ _ D.init 0 (Nat.lt_succ_self _) (Nat.zero_le _)]

/-! ### `std::set` operations -/

theorem mem_setInsert {α : Type} [LinearOrder α] (x a : α) (s : List α) :
    a ∈ setInsert x s ↔ a = x ∨ a ∈ s := by
  induction s with
  | nil => simp [setInsert]
  | cons y ys ih =>
    unfold setInsert
    by_cases h1 : x < y
    · simp [h1]
    · by_cases h2 : y < x
      · simp only [h1, h2, if_false, if_true, List.mem_cons, ih]
        tauto
      · have hxy : x = y := le_antisymm (not_lt.mp h2) (not_lt.mp h1)
        subst hxy
        simp [h1]

theorem sorted_setInsert {α : Type} [LinearOrder α] (x : α) (s : List α)
    (hs : s.Sorted (· < ·)) : (setInsert x s).Sorted (· < ·) := by
  induction s with
  | nil => simp [setInsert]
  | cons y ys ih =>
    have hy := List.sorted_cons.mp hs
    unfold setInsert
    by_cases h1 : x < y
    · simp only [h1, if_true]
      refine List.sorted_cons.mpr ⟨?_, hs⟩
      intro b hb
      rcases List.mem_cons.mp hb with hb | hb
      · exact hb ▸ h1
      · exact lt_trans h1 (hy.1 b hb)
    · by_cases h2 : y < x
      · simp only [h1, h2, if_false, if_true]
        refine List.sorted_cons.mpr ⟨?_, ih hy.2⟩
        intro b hb
        rcases (mem_setInsert x b ys).mp hb with hb | hb
        · exact hb ▸ h2
        · exact hy.1 b hb
      · simpa [h1, h2] using hs

theorem mem_setErase {α : Type} [LinearOrder α] (x a : α) (s : List α) :
    a ∈ setErase x s ↔ a ∈ s ∧ a ≠ x := by
  simp [setErase, List.mem_filter]

theorem sorted_setErase {α : Type} [LinearOrder α] (x : α) (s : List α)
    (hs : s.Sorted (· < ·)) : (setErase x s).Sorted (· < ·) :=
  List.Sorted.filter _ hs

theorem mem_setInsertRange {α : Type} [LinearOrder α] (range : List α) :
    ∀ (s : List α) (a : α), a ∈ setInsertRange range s ↔ a ∈ range ∨ a ∈ s := by
  induction range with
  | nil => intro s a; simp [setInsertRange]
  | cons x xs ih =>
    intro s a
    have h := ih (setInsert x s) a
    unfold setInsertRange at h ⊢
    rw [List.foldl_cons, h, mem_setInsert, List.mem_cons]
    tauto

theorem sorted_setInsertRange {α : Type} [LinearOrder α] (range : List α) :
    ∀ (s : List α), s.Sorted (· < ·) → (setInsertRange range s).Sorted (· < ·) := by
  induction range with
  | nil => intro s hs; simpa [setInsertRange] using hs
  | cons x xs ih =>
    intro s hs
    have h := ih (setInsert x s) (sorted_setInsert x s hs)
    unfold setInsertRange at h ⊢
    rw [List.foldl_cons]
    exact h

/-- Two ascending lists with the same elements are equal. -/
theorem sorted_ext {α : Type} [LinearOrder α] {s t : List α} (hs : s.Sorted (· < ·))
    (ht : t.Sorted (· < ·)) (h : ∀ a, a ∈ s ↔ a ∈ t) : s = t :=
  List.eq_of_perm_of_sorted ((List.perm_ext_iff_of_nodup hs.nodup ht.nodup).mpr h) hs ht

/-! ### `std::map` operations -/

theorem mapGet_mapSet {H P : Type} [LinearOrder H] (k k' : H) (v : List P)
    (m : duplicate_map H P) :
    mapGet k' (mapSet k v m) = if k' = k then v else mapGet k' m := by
  induction m with
  | nil => simp [mapSet, mapGet]
  | cons t rest ih =>
    unfold mapSet
    by_cases h1 : k < t.1
    · simp only [h1, if_true]
      rw [mapGet]
    · by_cases h2 : t.1 < k
      · simp only [h1, h2, if_false, if_true]
        rw [mapGet, ih]
        by_cases h3 : k' = t.1
        · have : t.1 ≠ k := ne_of_lt h2
          simp [h3, this, mapGet]
        · simp [h3, mapGet]
      · have hk : k = t.1 := le_antisymm (not_lt.mp h2) (not_lt.mp h1)
        simp only [h1, h2, if_false]
        rw [mapGet]
        by_cases h3 : k' = k
        · simp [h3]
        · have : k' ≠ t.1 := hk ▸ h3
          simp [h3, mapGet, this]

theorem mem_keys_mapSet {H P : Type} [LinearOrder H] (k a : H) (v : List P)
    (m : duplicate_map H P) :
    a ∈ (mapSet k v m).map Prod.fst ↔ a = k ∨ a ∈ m.map Prod.fst := by
  induction m with
  | nil => simp [mapSet]
  | cons t rest ih =>
    unfold mapSet
    by_cases h1 : k < t.1
    · simp [h1]
    · by_cases h2 : t.1 < k
      · simp only [h1, h2, if_false, if_true, List.map_cons, List.mem_cons, ih]
        tauto
      · have hk : k = t.1 := le_antisymm (not_lt.mp h2) (not_lt.mp h1)
        simp only [h1, h2, if_false, List.map_cons, List.mem_cons]
        rw [← hk]
        tauto

theorem mem_mapSet {H P : Type} [LinearOrder H] (k : H) (v : List P) (m : duplicate_map H P)
    (t : H × List P) (ht : t ∈ mapSet k v m) : t = (k, v) ∨ t ∈ m := by
  induction m with
  | nil => simpa [mapSet] using ht
  | cons u rest ih =>
    unfold mapSet at ht
    by_cases h1 : k < u.1
    · simp only [h1, if_true, List.mem_cons] at ht
      simpa [List.mem_cons] using ht
    · by_cases h2 : u.1 < k
      · simp only [h1, h2, if_false, if_true, List.mem_cons] at ht
        rcases ht with ht | ht
        · exact Or.inr (ht ▸ List.mem_cons_self _ _)
        · rcases ih ht with h | h
          · exact Or.inl h
          · exact Or.inr (List.mem_cons_of_mem _ h)
      · simp only [h1, h2, if_false, List.mem_cons] at ht
        rcases ht with ht | ht
        · exact Or.inl ht
        · exact Or.inr (List.mem_cons_of_mem _ ht)

theorem sorted_keys_mapSet {H P : Type} [LinearOrder H] (k : H) (v : List P)
    (m : duplicate_map H P) (hm : (m.map Prod.fst).Sorted (· < ·)) :
    ((mapSet k v m).map Prod.fst).Sorted (· < ·) := by
  induction m with
  | nil => simp [mapSet]
  | cons t rest ih =>
    rw [List.map_cons] at hm
    have ht := List.sorted_cons.mp hm
    unfold mapSet
    by_cases h1 : k < t.1
    · simp only [h1, if_true, List.map_cons]
      refine List.sorted_cons.mpr ⟨?_, hm⟩
      intro b hb
      rcases List.mem_cons.mp hb with hb | hb
      · exact hb ▸ h1
      · exact lt_trans h1 (ht.1 b hb)
    · by_cases h2 : t.1 < k
      · simp only [h1, h2, if_false, if_true, List.map_cons]
        refine List.sorted_cons.mpr ⟨?_, ih ht.2⟩
        intro b hb
        rcases (mem_keys_mapSet k b v rest).mp hb with hb | hb
        · exact hb ▸ h2
        · exact ht.1 b hb
      · have hk : k = t.1 := le_antisymm (not_lt.mp h2) (not_lt.mp h1)
        simp only [h1, h2, if_false, List.map_cons]
        rw [hk]
        exact hm

theorem mapGet_of_not_mem_keys {H P : Type} [LinearOrder H] (k : H) (m : duplicate_map H P)
    (h : k ∉ m.map Prod.fst) : mapGet k m = [] := by
  induction m with
  | nil => rfl
  | cons t rest ih =>
    rw [List.map_cons, List.mem_cons, not_or] at h
    rw [mapGet, if_neg h.1]
    exact ih h.2

theorem mapGet_mem_of_mem_keys {H P : Type} [LinearOrder H] (k : H) (m : duplicate_map H P)
    (h : k ∈ m.map Prod.fst) : (k, mapGet k m) ∈ m := by
  induction m with
  | nil => simp at h
  | cons t rest ih =>
    rw [mapGet]
    by_cases hk : k = t.1
    · rw [if_pos hk, hk]
      exact List.mem_cons_self _ _
    · rw [if_neg hk]
      rw [List.map_cons, List.mem_cons] at h
      rcases h with h | h
      · exact absurd h hk
      · exact List.mem_cons_of_mem _ (ih h)

theorem mapGet_eq_of_mem {H P : Type} [LinearOrder H] (m : duplicate_map H P)
    (hm : (m.map Prod.fst).Sorted (· < ·)) (t : H × List P) (ht : t ∈ m) :
    mapGet t.1 m = t.2 := by
  induction m with
  | nil => simp at ht
  | cons u rest ih =>
    rw [List.map_cons] at hm
    have hu := List.sorted_cons.mp hm
    rw [mapGet]
    rcases List.mem_cons.mp ht with h | h
    · rw [h, if_pos rfl]
    · have hlt : u.1 < t.1 := hu.1 t.1 (List.mem_map_of_mem _ h)
      rw [if_neg (ne_of_gt hlt)]
      exact ih hu.2 h

/-- A map with ascending keys is the list of its keys paired with their values. -/
theorem map_eq_keys_map_mapGet {H P : Type} [LinearOrder H] (m : duplicate_map H P)
    (hm : (m.map Prod.fst).Sorted (· < ·)) :
    m = (m.map Prod.fst).map (fun k => (k, mapGet k m)) := by
  rw [List.map_map]
  conv_lhs => rw [← List.map_id m]
  apply List.map_congr_left
  intro t ht
  simp only [Function.comp_apply, id_eq]
  rw [mapGet_eq_of_mem m hm t ht]

/-- Two maps with ascending keys, the same keys and the same value at every key are equal. -/
theorem map_ext {H P : Type} [LinearOrder H] {m₁ m₂ : duplicate_map H P}
    (h₁ : (m₁.map Prod.fst).Sorted (· < ·)) (h₂ : (m₂.map Prod.fst).Sorted (· < ·))
    (hkeys : ∀ k, k ∈ m₁.map Prod.fst ↔ k ∈ m₂.map Prod.fst)
    (hval : ∀ k, mapGet k m₁ = mapGet k m₂) : m₁ = m₂ := by
  have hk : m₁.map Prod.fst = m₂.map Prod.fst := sorted_ext h₁ h₂ hkeys
  rw [map_eq_keys_map_mapGet m₁ h₁, map_eq_keys_map_mapGet m₂ h₂, hk]
  apply List.map_congr_left
  intro k _
  rw [hval k]


/-! ### The batches of top-level files -/

theorem singleBlockSize_mul_ge (count threadNumber : Nat) (hN : 1 ≤ threadNumber) :
    count ≤ threadNumber * singleBlockSize count threadNumber := by
  unfold singleBlockSize
  have h1 := Nat.div_add_mod (count + threadNumber - 1) threadNumber
  have h2 := Nat.mod_lt (count + threadNumber - 1) (show 0 < threadNumber by omega)
  omega

theorem singleBlockSize_pos (count threadNumber : Nat) (hN : 1 ≤ threadNumber)
    (hc : 0 < count) : 0 < singleBlockSize count threadNumber := by
  unfold singleBlockSize
  exact Nat.div_pos (by omega) (by omega)

theorem filesPart_length {P : Type} (files : List P) (first last : Nat) :
    (filesPart files first last).length = min last files.length - first := by
  simp [filesPart]

theorem fileBatches_flatten {P : Type} (files : List P) (blockSize : Nat) :
    ∀ (remaining i : Nat), files.length ≤ (i + remaining) * blockSize →
      (fileBatches files blockSize remaining i).flatten = files.drop (i * blockSize) := by
  intro remaining
  induction remaining with
  | zero =>
    intro i h
    rw [fileBatches, List.flatten_nil, List.drop_of_length_le (by simpa using h)]
  | succ remaining ih =>
    intro i h
    rw [fileBatches]
    by_cases hlt : i * blockSize < files.length
    · have hidx : i + 1 + remaining = i + (remaining + 1) := by omega
      rw [if_pos hlt, List.flatten_cons, ih (i + 1) (by rw [hidx]; exact h)]
      have hle : i * blockSize ≤ (i + 1) * blockSize := Nat.mul_le_mul_right _ (by omega)
      unfold filesPart
      by_cases hc : (i + 1) * blockSize ≤ files.length
      · rw [Nat.min_eq_left hc]
        conv_rhs => rw [← List.take_append_drop ((i + 1) * blockSize) files]
        rw [List.drop_append_of_le_length (by rw [List.length_take]; omega)]
      · have hdrop : files.drop ((i + 1) * blockSize) = [] :=
          List.drop_of_length_le (by omega)
        rw [Nat.min_eq_right (by omega), List.take_length, hdrop, List.append_nil]
    · rw [if_neg hlt, List.flatten_nil, List.drop_of_length_le (by omega)]

theorem fileBatches_ne_nil {P : Type} (files : List P) (blockSize : Nat) (hb : 0 < blockSize) :
    ∀ (remaining i : Nat), ∀ part ∈ fileBatches files blockSize remaining i, part ≠ [] := by
  intro remaining
  induction remaining with
  | zero => intro i part h; simp [fileBatches] at h
  | succ remaining ih =>
    intro i part h
    rw [fileBatches] at h
    by_cases hlt : i * blockSize < files.length
    · rw [if_pos hlt, List.mem_cons] at h
      rcases h with h | h
      · intro hnil
        have hlen := filesPart_length files (i * blockSize)
          (min ((i + 1) * blockSize) files.length)
        rw [← h, hnil, List.length_nil] at hlen
        have : (i + 1) * blockSize = i * blockSize + blockSize := Nat.succ_mul _ _
        omega
      · exact ih (i + 1) part h
    · rw [if_neg hlt] at h
      simp at h

theorem fileBatches_length_le {P : Type} (files : List P) (blockSize : Nat) :
    ∀ (remaining i : Nat), (fileBatches files blockSize remaining i).length ≤ remaining := by
  intro remaining
  induction remaining with
  | zero => intro i; simp [fileBatches]
  | succ remaining ih =>
    intro i
    rw [fileBatches]
    split
    · rw [List.length_cons]
      exact Nat.succ_le_succ (ih (i + 1))
    · simp

theorem fileBatches_getElem? {P : Type} (files : List P) (blockSize : Nat) :
    ∀ (remaining i j : Nat), j < (fileBatches files blockSize remaining i).length →
      (fileBatches files blockSize remaining i)[j]?
        = some (filesPart files ((i + j) * blockSize)
            (min ((i + j + 1) * blockSize) files.length)) := by
  intro remaining
  induction remaining with
  | zero => intro i j h; simp [fileBatches] at h
  | succ remaining ih =>
    intro i j h
    rw [fileBatches] at h ⊢
    by_cases hlt : i * blockSize < files.length
    · rw [if_pos hlt] at h ⊢
      cases j with
      | zero => simp
      | succ j =>
        rw [List.length_cons] at h
        rw [List.getElem?_cons_succ, ih (i + 1) j (by omega)]
        rw [show i + 1 + j = i + (j + 1) by omega]
    · rw [if_neg hlt] at h
      simp at h

/-- Claim C7. The batches of the top-level files. For every sequence `files` and every thread
number `N ≥ 1`, the batches built with block size `ceil(count / N)` concatenate, in order, to
the whole sequence; the batch of index `j` is the contiguous slice from `j * blockSize` to
`min ((j + 1) * blockSize) count`; no batch is empty; there are at most `N` batches, and none
when there is no file. -/
theorem C7_batches_partition {P : Type} (files : List P) (threadNumber : Nat)
    (hN : 1 ≤ threadNumber) :
    (fileBatches files (singleBlockSize files.length threadNumber) threadNumber 0).flatten
        = files
      ∧ (∀ j, j < (fileBatches files (singleBlockSize files.length threadNumber)
            threadNumber 0).length →
          (fileBatches files (singleBlockSize files.length threadNumber) threadNumber 0)[j]?
            = some (filesPart files (j * singleBlockSize files.length threadNumber)
                (min ((j + 1) * singleBlockSize files.length threadNumber) files.length)))
      ∧ (∀ part ∈ fileBatches files (singleBlockSize files.length threadNumber) threadNumber 0,
          part ≠ [])
      ∧ (fileBatches files (singleBlockSize files.length threadNumber) threadNumber 0).length
          ≤ threadNumber
      ∧ (files = [] →
          fileBatches files (singleBlockSize files.length threadNumber) threadNumber 0 = []) := by
  have hflat := fileBatches_flatten files (singleBlockSize files.length threadNumber)
    threadNumber 0 (by
      rw [Nat.zero_add]
      exact singleBlockSize_mul_ge files.length threadNumber hN)
  rw [Nat.zero_mul, List.drop_zero] at hflat
  refine ⟨hflat, ?_, ?_, fileBatches_length_le _ _ _ _, ?_⟩
  · intro j hj
    have h := fileBatches_getElem? files (singleBlockSize files.length threadNumber)
      threadNumber 0 j hj
    simpa using h
  · intro part hpart
    rcases Nat.eq_zero_or_pos files.length with h0 | hpos
    · have hnil : files = [] := List.length_eq_zero.mp h0
      rw [hnil] at hpart
      cases threadNumber with
      | zero => omega
      | succ n => simp [fileBatches] at hpart
    · exact fileBatches_ne_nil files _ (singleBlockSize_pos _ _ hN hpos) _ _ part hpart
  · intro hnil
    subst hnil
    cases threadNumber with
    | zero => omega
    | succ n => simp [fileBatches]

/-- Witness of claim C7: seven files and three threads. -/
theorem C7_batches_partition_witness :
    (1 ≤ 3) ∧
    (fileBatches [1, 2, 3, 4, 5, 6, 7] (singleBlockSize [1, 2, 3, 4, 5, 6, 7].length 3) 3 0).flatten
        = [1, 2, 3, 4, 5, 6, 7] :=
  ⟨by decide, (C7_batches_partition [1, 2, 3, 4, 5, 6, 7] 3 (by decide)).1⟩


/-! ### Canonical maps -/

theorem canonical_nil {H P : Type} [LinearOrder H] [LinearOrder P] :
    Canonical ([] : duplicate_map H P) := by
  constructor
  · simp [keys]
  · intro t ht; simp at ht

theorem canonical_mapSet {H P : Type} [LinearOrder H] [LinearOrder P] (k : H) (v : List P)
    (m : duplicate_map H P) (hm : Canonical m) (hv : v.Sorted (· < ·)) :
    Canonical (mapSet k v m) := by
  constructor
  · exact sorted_keys_mapSet k v m hm.1
  · intro t ht
    rcases mem_mapSet k v m t ht with h | h
    · rw [h]; exact hv
    · exact hm.2 t h

theorem sorted_mapGet {H P : Type} [LinearOrder H] [LinearOrder P] (k : H)
    (m : duplicate_map H P) (hm : ∀ t ∈ m, t.2.Sorted (· < ·)) :
    (mapGet k m).Sorted (· < ·) := by
  by_cases hk : k ∈ m.map Prod.fst
  · exact hm _ (mapGet_mem_of_mem_keys k m hk)
  · rw [mapGet_of_not_mem_keys k m hk]
    exact List.sorted_nil

theorem canonical_bucketInsert {H P : Type} [LinearOrder H] [LinearOrder P] (h : H) (e : P)
    (m : duplicate_map H P) (hm : Canonical m) : Canonical (bucketInsert h e m) :=
  canonical_mapSet h _ m hm (sorted_setInsert e _ (sorted_mapGet h m hm.2))

theorem canonical_bucketErase {H P : Type} [LinearOrder H] [LinearOrder P] (h : H) (e : P)
    (m : duplicate_map H P) (hm : Canonical m) : Canonical (bucketErase h e m) :=
  canonical_mapSet h _ m hm (sorted_setErase e _ (sorted_mapGet h m hm.2))

theorem canonical_keepDuplicates {H P : Type} [LinearOrder H] [LinearOrder P]
    (m : duplicate_map H P) (hm : Canonical m) : Canonical (keepDuplicates m) := by
  constructor
  · unfold keys keepDuplicates
    exact List.Pairwise.sublist (List.Sublist.map _ (List.filter_sublist _)) hm.1
  · intro t ht
    exact hm.2 t (List.mem_filter.mp ht).1

/-- Two canonical maps with the same keys and the same members at every key are equal. -/
theorem canonical_ext {H P : Type} [LinearOrder H] [LinearOrder P] {m₁ m₂ : duplicate_map H P}
    (h₁ : Canonical m₁) (h₂ : Canonical m₂) (hkeys : ∀ k, k ∈ keys m₁ ↔ k ∈ keys m₂)
    (hmem : ∀ k x, x ∈ mapGet k m₁ ↔ x ∈ mapGet k m₂) : m₁ = m₂ :=
  map_ext h₁.1 h₂.1 hkeys
    (fun k => sorted_ext (sorted_mapGet k m₁ h₁.2) (sorted_mapGet k m₂ h₂.2) (hmem k))

theorem mem_mapGet_bucketInsert {H P : Type} [LinearOrder H] [LinearOrder P] (h k : H)
    (e x : P) (m : duplicate_map H P) :
    x ∈ mapGet k (bucketInsert h e m) ↔ x ∈ mapGet k m ∨ (k = h ∧ x = e) := by
  unfold bucketInsert
  rw [mapGet_mapSet]
  by_cases hk : k = h
  · subst hk
    simp only [if_true, mem_setInsert, true_and]
    tauto
  · simp [hk]

theorem mem_mapGet_bucketErase {H P : Type} [LinearOrder H] [LinearOrder P] (h k : H)
    (e x : P) (m : duplicate_map H P) :
    x ∈ mapGet k (bucketErase h e m) ↔ x ∈ mapGet k m ∧ ¬ (k = h ∧ x = e) := by
  unfold bucketErase
  rw [mapGet_mapSet]
  by_cases hk : k = h
  · subst hk
    simp only [if_true, mem_setErase, true_and]
  · simp [hk]

theorem mem_keys_bucketInsert {H P : Type} [LinearOrder H] [LinearOrder P] (h k : H) (e : P)
    (m : duplicate_map H P) : k ∈ keys (bucketInsert h e m) ↔ k = h ∨ k ∈ keys m :=
  mem_keys_mapSet h k _ m

theorem mem_keys_bucketErase {H P : Type} [LinearOrder H] [LinearOrder P] (h k : H) (e : P)
    (m : duplicate_map H P) : k ∈ keys (bucketErase h e m) ↔ k = h ∨ k ∈ keys m :=
  mem_keys_mapSet h k _ m

/-! ### The merge of the jobs -/

theorem mergeJob_spec {H P : Type} [LinearOrder H] [LinearOrder P] (job : duplicate_map H P) :
    ∀ (acc : duplicate_map H P), Canonical acc →
      Canonical (mergeJob acc job)
      ∧ (∀ k, k ∈ keys (mergeJob acc job) ↔ k ∈ keys acc ∨ ∃ t ∈ job, t.1 = k)
      ∧ (∀ k x, x ∈ mapGet k (mergeJob acc job)
          ↔ x ∈ mapGet k acc ∨ ∃ t ∈ job, t.1 = k ∧ x ∈ t.2) := by
  induction job with
  | nil =>
    intro acc hacc
    simp [mergeJob, hacc]
  | cons u rest ih =>
    intro acc hacc
    have hstep : Canonical (mapSet u.1 (setInsertRange u.2 (mapGet u.1 acc)) acc) :=
      canonical_mapSet _ _ _ hacc (sorted_setInsertRange _ _ (sorted_mapGet _ _ hacc.2))
    obtain ⟨hc, hk, hm⟩ := ih _ hstep
    have hunf : mergeJob acc (u :: rest)
        = mergeJob (mapSet u.1 (setInsertRange u.2 (mapGet u.1 acc)) acc) rest := by
      simp [mergeJob]
    rw [hunf]
    refine ⟨hc, ?_, ?_⟩
    · intro k
      rw [hk k]
      unfold keys
      rw [mem_keys_mapSet]
      simp only [List.mem_cons, exists_eq_or_imp]
      constructor
      · rintro ((h | h) | h)
        · exact Or.inr (Or.inl h.symm)
        · exact Or.inl h
        · exact Or.inr (Or.inr h)
      · rintro (h | h | h)
        · exact Or.inl (Or.inr h)
        · exact Or.inl (Or.inl h.symm)
        · exact Or.inr h
    · intro k x
      rw [hm k x, mapGet_mapSet]
      simp only [List.mem_cons, exists_eq_or_imp]
      by_cases hku : k = u.1
      · subst hku
        simp only [if_true, mem_setInsertRange, true_and]
        tauto
      · have hne : ¬ u.1 = k := fun h => hku h.symm
        simp only [hku, if_false, hne, false_and, false_or]

theorem mergeJobs_spec {H P : Type} [LinearOrder H] [LinearOrder P]
    (jobs : List (duplicate_map H P)) :
    ∀ (acc : duplicate_map H P), Canonical acc →
      Canonical (jobs.foldl mergeJob acc)
      ∧ (∀ k, k ∈ keys (jobs.foldl mergeJob acc)
          ↔ k ∈ keys acc ∨ ∃ job ∈ jobs, ∃ t ∈ job, t.1 = k)
      ∧ (∀ k x, x ∈ mapGet k (jobs.foldl mergeJob acc)
          ↔ x ∈ mapGet k acc ∨ ∃ job ∈ jobs, ∃ t ∈ job, t.1 = k ∧ x ∈ t.2) := by
  induction jobs with
  | nil =>
    intro acc hacc
    simp [hacc]
  | cons job rest ih =>
    intro acc hacc
    obtain ⟨hc1, hk1, hm1⟩ := mergeJob_spec job acc hacc
    obtain ⟨hc, hk, hm⟩ := ih _ hc1
    rw [List.foldl_cons]
    refine ⟨hc, ?_, ?_⟩
    · intro k
      rw [hk k, hk1 k]
      simp only [List.mem_cons, exists_eq_or_imp]
      exact or_assoc
    · intro k x
      rw [hm k x, hm1 k x]
      simp only [List.mem_cons, exists_eq_or_imp]
      exact or_assoc

theorem canonical_mergeJobs {H P : Type} [LinearOrder H] [LinearOrder P]
    (jobs : List (duplicate_map H P)) : Canonical (mergeJobs jobs) :=
  (mergeJobs_spec jobs [] canonical_nil).1

theorem mem_keys_mergeJobs {H P : Type} [LinearOrder H] [LinearOrder P]
    (jobs : List (duplicate_map H P)) (k : H) :
    k ∈ keys (mergeJobs jobs) ↔ ∃ job ∈ jobs, ∃ t ∈ job, t.1 = k := by
  have h := (mergeJobs_spec jobs [] canonical_nil).2.1 k
  simpa [keys, mergeJobs] using h

theorem mem_mapGet_mergeJobs {H P : Type} [LinearOrder H] [LinearOrder P]
    (jobs : List (duplicate_map H P)) (k : H) (x : P) :
    x ∈ mapGet k (mergeJobs jobs) ↔ ∃ job ∈ jobs, ∃ t ∈ job, t.1 = k ∧ x ∈ t.2 := by
  have h := (mergeJobs_spec jobs [] canonical_nil).2.2 k x
  simpa [mapGet, mergeJobs] using h

/-- The merged map depends only on the set of jobs. -/
theorem mergeJobs_congr {H P : Type} [LinearOrder H] [LinearOrder P]
    (jobs jobs' : List (duplicate_map H P)) (h : ∀ job, job ∈ jobs ↔ job ∈ jobs') :
    mergeJobs jobs = mergeJobs jobs' := by
  apply canonical_ext (canonical_mergeJobs jobs) (canonical_mergeJobs jobs')
  · intro k
    rw [mem_keys_mergeJobs, mem_keys_mergeJobs]
    constructor
    · rintro ⟨job, hj, ht⟩; exact ⟨job, (h job).mp hj, ht⟩
    · rintro ⟨job, hj, ht⟩; exact ⟨job, (h job).mpr hj, ht⟩
  · intro k x
    rw [mem_mapGet_mergeJobs, mem_mapGet_mergeJobs]
    constructor
    · rintro ⟨job, hj, ht⟩; exact ⟨job, (h job).mp hj, ht⟩
    · rintro ⟨job, hj, ht⟩; exact ⟨job, (h job).mpr hj, ht⟩

/-- Claim C5. The merge step does not depend on the order of the jobs and is idempotent. For every
list of local maps and every permutation of it, the merged map (per-key set union over the
jobs) and the map kept after the filter `size > 1` are identical; merging the map of a job that
was already merged changes neither. -/
theorem C5_merge_permutation_invariant {H P : Type} [LinearOrder H] [LinearOrder P]
    (jobs jobs' : List (duplicate_map H P)) (hperm : jobs.Perm jobs') :
    mergeJobs jobs = mergeJobs jobs'
      ∧ keepDuplicates (mergeJobs jobs) = keepDuplicates (mergeJobs jobs')
      ∧ ∀ job ∈ jobs, mergeJob (mergeJobs jobs) job = mergeJobs jobs
          ∧ keepDuplicates (mergeJobs (jobs ++ [job])) = keepDuplicates (mergeJobs jobs) := by
  have heq : mergeJobs jobs = mergeJobs jobs' :=
    mergeJobs_congr jobs jobs' (fun job => hperm.mem_iff)
  refine ⟨heq, by rw [heq], ?_⟩
  intro job hjob
  have hagain : mergeJobs (jobs ++ [job]) = mergeJobs jobs := by
    apply mergeJobs_congr
    intro j
    rw [List.mem_append, List.mem_singleton]
    constructor
    · rintro (h | h)
      · exact h
      · exact h ▸ hjob
    · intro h; exact Or.inl h
  have hstep : mergeJobs (jobs ++ [job]) = mergeJob (mergeJobs jobs) job := by
    simp [mergeJobs, List.foldl_append]
  constructor
  · rw [← hstep]
    exact hagain
  · rw [hagain]


/-! ### The scan units -/

theorem smallCheckSize_lt : smallCheckSize < u_int_range := by decide

theorem calculateFileHash_small {H P : Type} (D : Digest H) (fs : FileSystem P) (file : P) :
    calculateFileHash D fs file smallCheckSize false = some (prefixHash D fs file) := by
  rw [calculateFileHash_eq D fs file smallCheckSize false smallCheckSize_lt]
  rfl

theorem calculateFileHash_full {H P : Type} (D : Digest H) (fs : FileSystem P) (file : P) :
    calculateFileHash D fs file 0 true = some (fullHash D fs file) := by
  rw [calculateFileHash_eq D fs file 0 true (by decide)]
  rfl

theorem scanEntry_eq {H P : Type} [LinearOrder H] [LinearOrder P] (D : Digest H)
    (fs : FileSystem P) (ignored : List (List Char)) (m : duplicate_map H P) (entry : P) :
    scanEntry D fs ignored m entry = some (scanStep D fs ignored m entry) := by
  unfold scanEntry scanStep
  split
  · rw [calculateFileHash_small]; rfl
  · rfl

theorem foldlM_eq_some {α β : Type} (f : β → α → Option β) (g : β → α → β)
    (h : ∀ b a, f b a = some (g b a)) (l : List α) :
    ∀ b, l.foldlM f b = some (l.foldl g b) := by
  induction l with
  | nil => intro b; rfl
  | cons a l ih =>
    intro b
    rw [List.foldlM_cons, h b a, List.foldl_cons]
    exact ih (g b a)

theorem allSome_map_some {α β : Type} (g : α → β) (l : List α) :
    (l.map (fun a => some (g a))).allSome = some (l.map g) := by
  unfold List.allSome
  induction l with
  | nil => rfl
  | cons a l ih =>
    rw [List.map_cons, List.mapM_cons, ih]
    rfl

theorem generateDirectoryHashes_eq {H P : Type} [LinearOrder H] [LinearOrder P] (D : Digest H)
    (fs : FileSystem P) (directory : P) (ignored : List (List Char)) :
    generateDirectoryHashes D fs directory ignored
      = some ((fs.recursive_directory_iterator directory).foldl (scanStep D fs ignored) []) :=
  foldlM_eq_some _ _ (scanEntry_eq D fs ignored) _ _

theorem generateSingleFilesHashes_eq {H P : Type} [LinearOrder H] [LinearOrder P]
    (D : Digest H) (fs : FileSystem P) (files : List P) (ignored : List (List Char)) :
    generateSingleFilesHashes D fs files ignored
      = some (files.foldl (scanStep D fs ignored) []) :=
  foldlM_eq_some _ _ (scanEntry_eq D fs ignored) _ _

theorem scanFold_spec {H P : Type} [LinearOrder H] [LinearOrder P] (D : Digest H)
    (fs : FileSystem P) (ignored : List (List Char)) (entries : List P) :
    ∀ (acc : duplicate_map H P), Canonical acc →
      Canonical (entries.foldl (scanStep D fs ignored) acc)
      ∧ (∀ k, k ∈ keys (entries.foldl (scanStep D fs ignored) acc)
          ↔ k ∈ keys acc ∨ ∃ x ∈ entries, eligible fs ignored x ∧ prefixHash D fs x = k)
      ∧ (∀ k x, x ∈ mapGet k (entries.foldl (scanStep D fs ignored) acc)
          ↔ x ∈ mapGet k acc
            ∨ (x ∈ entries ∧ eligible fs ignored x ∧ prefixHash D fs x = k)) := by
  induction entries with
  | nil => intro acc hacc; simp [hacc]
  | cons e rest ih =>
    intro acc hacc
    rw [List.foldl_cons]
    by_cases he : fs.is_regular_file e = true ∧ fs.extension e ∉ ignored
    · have hstep : scanStep D fs ignored acc e = bucketInsert (prefixHash D fs e) e acc := by
        unfold scanStep; rw [if_pos he]
      rw [hstep]
      obtain ⟨hc, hk, hm⟩ := ih _ (canonical_bucketInsert (prefixHash D fs e) e acc hacc)
      refine ⟨hc, ?_, ?_⟩
      · intro k
        rw [hk k, mem_keys_bucketInsert]
        simp only [List.mem_cons, exists_eq_or_imp]
        constructor
        · rintro ((h | h) | h)
          · exact Or.inr (Or.inl ⟨he, h.symm⟩)
          · exact Or.inl h
          · exact Or.inr (Or.inr h)
        · rintro (h | h | h)
          · exact Or.inl (Or.inr h)
          · exact Or.inl (Or.inl h.2.symm)
          · exact Or.inr h
      · intro k x
        rw [hm k x, mem_mapGet_bucketInsert]
        simp only [List.mem_cons]
        constructor
        · rintro ((h | h) | h)
          · exact Or.inl h
          · exact Or.inr ⟨Or.inl h.2, h.2 ▸ he, h.2 ▸ h.1.symm⟩
          · exact Or.inr ⟨Or.inr h.1, h.2⟩
        · rintro (h | ⟨h | h, h2⟩)
          · exact Or.inl (Or.inl h)
          · exact Or.inl (Or.inr ⟨(h ▸ h2.2).symm, h⟩)
          · exact Or.inr ⟨h, h2⟩
    · have hstep : scanStep D fs ignored acc e = acc := by
        unfold scanStep; rw [if_neg he]
      rw [hstep]
      obtain ⟨hc, hk, hm⟩ := ih _ hacc
      refine ⟨hc, ?_, ?_⟩
      · intro k
        rw [hk k]
        simp only [List.mem_cons, exists_eq_or_imp]
        constructor
        · rintro (h | h)
          · exact Or.inl h
          · exact Or.inr (Or.inr h)
        · rintro (h | h | h)
          · exact Or.inl h
          · exact absurd h.1 he
          · exact Or.inr h
      · intro k x
        rw [hm k x]
        simp only [List.mem_cons]
        constructor
        · rintro (h | h)
          · exact Or.inl h
          · exact Or.inr ⟨Or.inr h.1, h.2⟩
        · rintro (h | ⟨h | h, h2⟩)
          · exact Or.inl h
          · exact absurd (h ▸ h2.1) he
          · exact Or.inr ⟨h, h2⟩

theorem exists_mem_iff_mem_mapGet {H P : Type} [LinearOrder H] (m : duplicate_map H P)
    (hm : (m.map Prod.fst).Sorted (· < ·)) (k : H) (x : P) :
    (∃ t ∈ m, t.1 = k ∧ x ∈ t.2) ↔ x ∈ mapGet k m := by
  constructor
  · rintro ⟨t, ht, hk, hx⟩
    rw [← hk, mapGet_eq_of_mem m hm t ht]
    exact hx
  · intro hx
    by_cases hk : k ∈ m.map Prod.fst
    · exact ⟨_, mapGet_mem_of_mem_keys k m hk, rfl, hx⟩
    · rw [mapGet_of_not_mem_keys k m hk] at hx
      simp at hx

theorem scanJobs_eq {H P : Type} [LinearOrder H] [LinearOrder P] (D : Digest H)
    (fs : FileSystem P) (threadNumber : Nat) (ignored : List (List Char)) :
    (scanJobs D fs threadNumber ignored).allSome
      = some ((scanUnits fs threadNumber).map
          (fun unit => unit.foldl (scanStep D fs ignored) [])) := by
  rw [← allSome_map_some]
  congr 1
  unfold scanJobs scanUnits
  simp only [List.map_append, List.map_map]
  congr 1
  · apply List.map_congr_left
    intro e _
    exact generateDirectoryHashes_eq D fs e ignored
  · apply List.map_congr_left
    intro part _
    exact generateSingleFilesHashes_eq D fs part ignored

theorem fileBatches_flatten_eq {P : Type} (files : List P) (threadNumber : Nat)
    (hN : 1 ≤ threadNumber) :
    (fileBatches files (singleBlockSize files.length threadNumber) threadNumber 0).flatten
      = files := by
  have hflat := fileBatches_flatten files (singleBlockSize files.length threadNumber)
    threadNumber 0 (by
      rw [Nat.zero_add]
      exact singleBlockSize_mul_ge files.length threadNumber hN)
  rw [Nat.zero_mul, List.drop_zero] at hflat
  exact hflat

theorem scanUnits_flatten {P : Type} (fs : FileSystem P) (threadNumber : Nat)
    (hN : 1 ≤ threadNumber) : (scanUnits fs threadNumber).flatten = scannedEntries fs := by
  unfold scanUnits scannedEntries
  rw [List.flatten_append, fileBatches_flatten_eq _ _ hN]

/-- The map `results` of `findDuplicates`: the merge of the maps of all jobs. -/
theorem results_spec {H P : Type} [LinearOrder H] [LinearOrder P] (D : Digest H)
    (fs : FileSystem P) (threadNumber : Nat) (ignored : List (List Char))
    (hN : 1 ≤ threadNumber) :
    Canonical (scanResults D fs threadNumber ignored)
      ∧ (∀ k, k ∈ keys (scanResults D fs threadNumber ignored)
          ↔ ∃ x ∈ scannedEntries fs, eligible fs ignored x ∧ prefixHash D fs x = k)
      ∧ (∀ k x, x ∈ mapGet k (scanResults D fs threadNumber ignored)
          ↔ x ∈ scannedEntries fs ∧ eligible fs ignored x ∧ prefixHash D fs x = k) := by
  unfold scanResults
  refine ⟨canonical_mergeJobs _, ?_, ?_⟩
  · intro k
    rw [mem_keys_mergeJobs, ← scanUnits_flatten fs threadNumber hN]
    simp only [List.mem_map, List.mem_flatten]
    constructor
    · rintro ⟨job, ⟨unit, hunit, rfl⟩, t, ht, hk⟩
      have hspec := (scanFold_spec D fs ignored unit [] canonical_nil).2.1 k
      have hmem : k ∈ keys (unit.foldl (scanStep D fs ignored) ([] : duplicate_map H P)) := by
        rw [← hk]; exact List.mem_map_of_mem _ ht
      rcases hspec.mp hmem with h | ⟨x, hx, hel⟩
      · simp [keys] at h
      · exact ⟨x, ⟨unit, hunit, hx⟩, hel⟩
    · rintro ⟨x, ⟨unit, hunit, hx⟩, hel⟩
      have hspec := (scanFold_spec D fs ignored unit ([] : duplicate_map H P)
        canonical_nil).2.1 k
      have hmem := hspec.mpr (Or.inr ⟨x, hx, hel⟩)
      obtain ⟨t, ht, hk⟩ := List.mem_map.mp hmem
      exact ⟨_, ⟨unit, hunit, rfl⟩, t, ht, hk⟩
  · intro k x
    rw [mem_mapGet_mergeJobs, ← scanUnits_flatten fs threadNumber hN]
    simp only [List.mem_map, List.mem_flatten]
    constructor
    · rintro ⟨job, ⟨unit, hunit, rfl⟩, hex⟩
      obtain ⟨hc, _, hm⟩ := scanFold_spec D fs ignored unit ([] : duplicate_map H P)
        canonical_nil
      rw [exists_mem_iff_mem_mapGet _ hc.1, hm k x] at hex
      rcases hex with h | h
      · simp [mapGet] at h
      · exact ⟨⟨unit, hunit, h.1⟩, h.2⟩
    · rintro ⟨⟨unit, hunit, hx⟩, hel⟩
      refine ⟨_, ⟨unit, hunit, rfl⟩, ?_⟩
      obtain ⟨hc, _, hm⟩ := scanFold_spec D fs ignored unit ([] : duplicate_map H P)
        canonical_nil
      rw [exists_mem_iff_mem_mapGet _ hc.1, hm k x]
      exact Or.inr ⟨hx, hel⟩

theorem findDuplicates_eq {H P : Type} [LinearOrder H] [LinearOrder P] (D : Digest H)
    (fs : FileSystem P) (full : Bool) (threadNumber : Nat) (ignored : List (List Char)) :
    findDuplicates D fs full threadNumber ignored
      = if full = true then
          fullCheck D fs (keepDuplicates (scanResults D fs threadNumber ignored))
        else some (keepDuplicates (scanResults D fs threadNumber ignored)) := by
  unfold scanResults
  unfold findDuplicates
  rw [scanJobs_eq]


/-! ### The candidate map -/

theorem one_lt_length_iff_exists_ne {α : Type} (l : List α) (hl : l.Nodup) (a : α)
    (ha : a ∈ l) : 1 < l.length ↔ ∃ b ∈ l, b ≠ a := by
  constructor
  · intro h
    match l, hl, h, ha with
    | [x], _, h, _ => simp at h
    | x :: y :: rest, hl, _, _ =>
      by_cases hx : x = a
      · refine ⟨y, by simp, ?_⟩
        intro hy
        rw [List.nodup_cons] at hl
        exact hl.1 (by rw [hx, ← hy]; exact List.mem_cons_self _ _)
      · exact ⟨x, by simp, hx⟩
  · rintro ⟨b, hb, hne⟩
    match l, ha, hb with
    | [x], ha, hb =>
      rw [List.mem_singleton] at ha hb
      exact absurd (hb.trans ha.symm) hne
    | x :: y :: rest, _, _ => simp

theorem mem_keepDuplicates {H P : Type} (m : duplicate_map H P) (t : H × List P) :
    t ∈ keepDuplicates m ↔ t ∈ m ∧ 1 < t.2.length := by
  simp [keepDuplicates, List.mem_filter]

theorem eligible_congr {P : Type} (fs fs' : FileSystem P) (ignored : List (List Char))
    (hreg : fs'.is_regular_file = fs.is_regular_file) (hext : fs'.extension = fs.extension)
    (x : P) : eligible fs' ignored x ↔ eligible fs ignored x := by
  unfold eligible
  rw [hreg, hext]

theorem prefixHash_congr {H P : Type} (D : Digest H) (fs fs' : FileSystem P)
    (hopen : fs'.open_stream = fs.open_stream) (x : P) :
    prefixHash D fs' x = prefixHash D fs x := by
  unfold prefixHash
  rw [hopen]

/-- Claim C2. The result of the prefix scan (`full = false`). For every file system, ignore set
and thread number `N ≥ 1`, `findDuplicates` returns a map `r` such that
(1) the same map is returned for every other thread number and for every other arrangement of
the same entries into directories and top-level entries;
(2) a scanned regular file whose extension is not ignored is in some group exactly when another
such file under the starting path has the same prefix hash;
(3) every member of a group is such a file and the key of the group is its prefix hash, so a
file with an ignored extension is in no group;
(4) a file is in at most one group. -/
theorem C2_prefix_scan_deterministic {H P : Type} [LinearOrder H] [LinearOrder P]
    (D : Digest H) (fs : FileSystem P) (ignored : List (List Char)) (threadNumber : Nat)
    (hN : 1 ≤ threadNumber) :
    ∃ r, findDuplicates D fs false threadNumber ignored = some r
      ∧ (∀ (fs' : FileSystem P) (threadNumber' : Nat), 1 ≤ threadNumber' →
          fs'.is_regular_file = fs.is_regular_file → fs'.extension = fs.extension →
          fs'.open_stream = fs.open_stream →
          (∀ e, e ∈ scannedEntries fs' ↔ e ∈ scannedEntries fs) →
          findDuplicates D fs' false threadNumber' ignored = some r)
      ∧ (∀ f ∈ scannedEntries fs, eligible fs ignored f →
          ((∃ t ∈ r, f ∈ t.2) ↔
            ∃ f' ∈ scannedEntries fs, f' ≠ f ∧ eligible fs ignored f' ∧
              calculateFileHash D fs f' smallCheckSize false
                = calculateFileHash D fs f smallCheckSize false))
      ∧ (∀ t ∈ r, ∀ f ∈ t.2, f ∈ scannedEntries fs ∧ eligible fs ignored f ∧
          fs.extension f ∉ ignored ∧
          calculateFileHash D fs f smallCheckSize false = some t.1)
      ∧ (∀ t ∈ r, ∀ t' ∈ r, ∀ f, f ∈ t.2 → f ∈ t'.2 → t = t') := by
  obtain ⟨hcan, hkeys, hmem⟩ := results_spec D fs threadNumber ignored hN
  refine ⟨_, by rw [findDuplicates_eq]; rfl, ?_, ?_, ?_, ?_⟩
  · intro fs' threadNumber' hN' hreg hext hopen hscan
    obtain ⟨hcan', hkeys', hmem'⟩ := results_spec D fs' threadNumber' ignored hN'
    rw [findDuplicates_eq]
    simp only [Bool.false_eq_true, if_false, Option.some.injEq]
    congr 1
    apply canonical_ext hcan' hcan
    · intro k
      rw [hkeys' k, hkeys k]
      constructor
      · rintro ⟨x, hx, hel, hh⟩
        exact ⟨x, (hscan x).mp hx, (eligible_congr fs fs' ignored hreg hext x).mp hel,
          by rw [← prefixHash_congr D fs fs' hopen x]; exact hh⟩
      · rintro ⟨x, hx, hel, hh⟩
        exact ⟨x, (hscan x).mpr hx, (eligible_congr fs fs' ignored hreg hext x).mpr hel,
          by rw [prefixHash_congr D fs fs' hopen x]; exact hh⟩
    · intro k x
      rw [hmem' k x, hmem k x, hscan x, eligible_congr fs fs' ignored hreg hext x,
        prefixHash_congr D fs fs' hopen x]
  · intro f hf hel
    have hfin := (hmem (prefixHash D fs f) f).mpr ⟨hf, hel, rfl⟩
    have hnodup := (sorted_mapGet (prefixHash D fs f) _ hcan.2).nodup
    constructor
    · rintro ⟨t, ht, hft⟩
      rw [mem_keepDuplicates] at ht
      have hget := mapGet_eq_of_mem _ hcan.1 t ht.1
      have hkey : prefixHash D fs f = t.1 := by
        have := (hmem t.1 f).mp (by rw [hget]; exact hft)
        exact this.2.2
      have hlen : 1 < (mapGet (prefixHash D fs f)
          (scanResults D fs threadNumber ignored)).length := by
        rw [hkey, hget]; exact ht.2
      obtain ⟨b, hb, hne⟩ := (one_lt_length_iff_exists_ne _ hnodup f hfin).mp hlen
      have hb' := (hmem _ b).mp hb
      refine ⟨b, hb'.1, hne, hb'.2.1, ?_⟩
      rw [calculateFileHash_small, calculateFileHash_small, hb'.2.2]
    · rintro ⟨f', hf', hne, hel', hh⟩
      rw [calculateFileHash_small, calculateFileHash_small, Option.some.injEq] at hh
      have hf'in := (hmem (prefixHash D fs f) f').mpr ⟨hf', hel', hh⟩
      have hlen := (one_lt_length_iff_exists_ne _ hnodup f hfin).mpr ⟨f', hf'in, hne⟩
      have hkin : prefixHash D fs f ∈ keys (scanResults D fs threadNumber ignored) :=
        (hkeys _).mpr ⟨f, hf, hel, rfl⟩
      refine ⟨_, (mem_keepDuplicates _ _).mpr ⟨mapGet_mem_of_mem_keys _ _ hkin, hlen⟩, hfin⟩
  · intro t ht f hft
    rw [mem_keepDuplicates] at ht
    have hget := mapGet_eq_of_mem _ hcan.1 t ht.1
    have := (hmem t.1 f).mp (by rw [hget]; exact hft)
    refine ⟨this.1, this.2.1, this.2.1.2, ?_⟩
    rw [calculateFileHash_small, this.2.2]
  · intro t ht t' ht' f hft hft'
    rw [mem_keepDuplicates] at ht ht'
    have hget := mapGet_eq_of_mem _ hcan.1 t ht.1
    have hget' := mapGet_eq_of_mem _ hcan.1 t' ht'.1
    have h1 := ((hmem t.1 f).mp (by rw [hget]; exact hft)).2.2
    have h2 := ((hmem t'.1 f).mp (by rw [hget']; exact hft')).2.2
    have hk : t.1 = t'.1 := h1.symm.trans h2
    apply Prod.ext hk
    rw [← hget, ← hget', hk]


/-! ### The full check -/

theorem recheckEntry_eq {H P : Type} [LinearOrder H] [LinearOrder P] (D : Digest H)
    (fs : FileSystem P) (key : H) (m : duplicate_map H P) (entry : P) :
    recheckEntry D fs key m entry = some (recheckStep D fs key m entry) := by
  unfold recheckEntry recheckStep
  rw [calculateFileHash_full]
  rfl

theorem recheckGroup_eq {H P : Type} [LinearOrder H] [LinearOrder P] (D : Digest H)
    (fs : FileSystem P) (key : H) (snapshot : List P) (m : duplicate_map H P) :
    recheckGroup D fs key snapshot m = some (snapshot.foldl (recheckStep D fs key) m) :=
  foldlM_eq_some _ _ (recheckEntry_eq D fs key) _ _

theorem canonical_recheckStep {H P : Type} [LinearOrder H] [LinearOrder P] (D : Digest H)
    (fs : FileSystem P) (key : H) (m : duplicate_map H P) (e : P) (hm : Canonical m) :
    Canonical (recheckStep D fs key m e) := by
  unfold recheckStep
  split
  · exact canonical_bucketInsert _ _ _ (canonical_bucketErase _ _ _ hm)
  · exact hm

theorem mem_mapGet_recheckStep {H P : Type} [LinearOrder H] [LinearOrder P] (D : Digest H)
    (fs : FileSystem P) (key : H) (m : duplicate_map H P) (e : P) (k : H) (x : P) :
    x ∈ mapGet k (recheckStep D fs key m e)
      ↔ (x ∈ mapGet k m ∧ ¬ (k = key ∧ x = e ∧ fullHash D fs e ≠ key))
        ∨ (x = e ∧ fullHash D fs e = k ∧ k ≠ key) := by
  unfold recheckStep
  by_cases h : fullHash D fs e = key
  · rw [if_neg (not_not.mpr h)]
    constructor
    · intro hx
      exact Or.inl ⟨hx, fun hc => hc.2.2 h⟩
    · rintro (hx | hx)
      · exact hx.1
      · exact absurd (hx.2.1.symm.trans h) hx.2.2
  · rw [if_pos h, mem_mapGet_bucketInsert, mem_mapGet_bucketErase]
    constructor
    · rintro (hx | hx)
      · exact Or.inl ⟨hx.1, fun hc => hx.2 ⟨hc.1, hc.2.1⟩⟩
      · exact Or.inr ⟨hx.2, hx.1.symm, fun hc => h (hx.1.symm.trans hc)⟩
    · rintro (hx | hx)
      · exact Or.inl ⟨hx.1, fun hc => hx.2 ⟨hc.1, hc.2, h⟩⟩
      · exact Or.inr ⟨hx.2.1.symm, hx.1⟩

theorem mem_keys_recheckStep {H P : Type} [LinearOrder H] [LinearOrder P] (D : Digest H)
    (fs : FileSystem P) (key : H) (m : duplicate_map H P) (e : P) (k : H)
    (hk : k ∈ keys (recheckStep D fs key m e)) :
    k ∈ keys m ∨ k = key ∨ k = fullHash D fs e := by
  unfold recheckStep at hk
  split at hk
  · rw [mem_keys_bucketInsert, mem_keys_bucketErase] at hk
    tauto
  · exact Or.inl hk

theorem recheckFold_spec {H P : Type} [LinearOrder H] [LinearOrder P] (D : Digest H)
    (fs : FileSystem P) (key : H) (l : List P) :
    ∀ (m : duplicate_map H P), Canonical m →
      Canonical (l.foldl (recheckStep D fs key) m)
      ∧ (∀ k, k ∈ keys (l.foldl (recheckStep D fs key) m) →
          k ∈ keys m ∨ k = key ∨ ∃ x ∈ l, k = fullHash D fs x)
      ∧ (∀ x, x ∈ mapGet key (l.foldl (recheckStep D fs key) m)
          ↔ x ∈ mapGet key m ∧ ¬ (x ∈ l ∧ fullHash D fs x ≠ key))
      ∧ (∀ k x, k ≠ key → (x ∈ mapGet k (l.foldl (recheckStep D fs key) m)
          ↔ x ∈ mapGet k m ∨ (x ∈ l ∧ fullHash D fs x = k))) := by
  induction l with
  | nil =>
    intro m hm
    simp only [List.foldl_nil]
    exact ⟨hm, fun k hk => Or.inl hk, by simp, by simp⟩
  | cons e rest ih =>
    intro m hm
    rw [List.foldl_cons]
    obtain ⟨hc, hk, hkey, hother⟩ := ih _ (canonical_recheckStep D fs key m e hm)
    refine ⟨hc, ?_, ?_, ?_⟩
    · intro k hkin
      rcases hk k hkin with h | h | ⟨x, hx, h⟩
      · rcases mem_keys_recheckStep D fs key m e k h with h | h | h
        · exact Or.inl h
        · exact Or.inr (Or.inl h)
        · exact Or.inr (Or.inr ⟨e, List.mem_cons_self _ _, h⟩)
      · exact Or.inr (Or.inl h)
      · exact Or.inr (Or.inr ⟨x, List.mem_cons_of_mem _ hx, h⟩)
    · intro x
      rw [hkey x, mem_mapGet_recheckStep, List.mem_cons]
      constructor
      · rintro ⟨h1 | h1, h2⟩
        · refine ⟨h1.1, ?_⟩
          rintro ⟨h3 | h3, h4⟩
          · exact h1.2 ⟨rfl, h3, h3 ▸ h4⟩
          · exact h2 ⟨h3, h4⟩
        · exact absurd rfl h1.2.2
      · rintro ⟨h1, h2⟩
        refine ⟨Or.inl ⟨h1, ?_⟩, ?_⟩
        · rintro ⟨_, h3, h4⟩
          exact h2 ⟨Or.inl h3, h3 ▸ h4⟩
        · rintro ⟨h3, h4⟩
          exact h2 ⟨Or.inr h3, h4⟩
    · intro k x hne
      rw [hother k x hne, mem_mapGet_recheckStep, List.mem_cons]
      constructor
      · rintro ((h | h) | h)
        · exact Or.inl h.1
        · exact Or.inr ⟨Or.inl h.1, h.1 ▸ h.2.1⟩
        · exact Or.inr ⟨Or.inr h.1, h.2⟩
      · rintro (h | ⟨h | h, h2⟩)
        · exact Or.inl (Or.inl ⟨h, fun hc => hne hc.1⟩)
        · exact Or.inl (Or.inr ⟨h, h ▸ h2, hne⟩)
        · exact Or.inr ⟨h, h2⟩

theorem nextKey_eq_none {H P : Type} [LinearOrder H] (k : H) (m : duplicate_map H P)
    (h : nextKey k m = none) : ∀ a ∈ keys m, ¬ k < a := by
  induction m with
  | nil => intro a ha; simp [keys] at ha
  | cons t rest ih =>
    intro a ha
    rw [nextKey] at h
    split at h
    · simp at h
    · rename_i hlt
      unfold keys at ha
      rw [List.map_cons, List.mem_cons] at ha
      rcases ha with ha | ha
      · rw [ha]; exact hlt
      · exact ih h a ha

theorem nextKey_eq_some {H P : Type} [LinearOrder H] (k k' : H) (m : duplicate_map H P)
    (hm : (keys m).Sorted (· < ·)) (h : nextKey k m = some k') :
    k' ∈ keys m ∧ k < k' ∧ ∀ a ∈ keys m, k < a → k' ≤ a := by
  induction m with
  | nil => simp [nextKey] at h
  | cons t rest ih =>
    unfold keys at hm
    rw [List.map_cons] at hm
    have ht := List.sorted_cons.mp hm
    rw [nextKey] at h
    split at h
    · rename_i hlt
      rw [Option.some.injEq] at h
      subst h
      refine ⟨by simp [keys], hlt, ?_⟩
      intro a ha _
      unfold keys at ha
      rw [List.map_cons, List.mem_cons] at ha
      rcases ha with ha | ha
      · exact le_of_eq ha.symm
      · exact le_of_lt (ht.1 a ha)
    · rename_i hlt
      obtain ⟨h1, h2, h3⟩ := ih ht.2 h
      refine ⟨by unfold keys at h1 ⊢; rw [List.map_cons]; exact List.mem_cons_of_mem _ h1,
        h2, ?_⟩
      intro a ha hka
      unfold keys at ha
      rw [List.map_cons, List.mem_cons] at ha
      rcases ha with ha | ha
      · rw [ha] at hka; exact absurd hka hlt
      · exact h3 a ha hka

theorem countP_lt_countP {α : Type} (p q : α → Bool) (l : List α)
    (hpq : ∀ x, p x = true → q x = true) (hex : ∃ x ∈ l, q x = true ∧ p x = false) :
    l.countP p < l.countP q := by
  induction l with
  | nil => obtain ⟨x, hx, _⟩ := hex; simp at hx
  | cons a l ih =>
    have hmono : l.countP p ≤ l.countP q := List.countP_mono_left (fun x _ => hpq x)
    obtain ⟨x, hx, hq, hp⟩ := hex
    rw [List.countP_cons, List.countP_cons]
    rcases List.mem_cons.mp hx with hxa | hxl
    · subst hxa
      rw [if_pos hq, if_neg (by rw [hp]; simp)]
      omega
    · have := ih ⟨x, hxl, hq, hp⟩
      by_cases hpa : p a = true
      · rw [if_pos hpa, if_pos (hpq a hpa)]
        omega
      · rw [if_neg hpa]
        split <;> omega

theorem countP_lt_length {α : Type} (p : α → Bool) (l : List α)
    (hex : ∃ x ∈ l, p x = false) : l.countP p < l.length := by
  have h := countP_lt_countP p (fun _ => true) l (fun _ _ => rfl)
    (by obtain ⟨x, hx, hp⟩ := hex; exact ⟨x, hx, rfl, hp⟩)
  simpa using h


theorem fullCheckLoop_none {H P : Type} [LinearOrder H] [LinearOrder P] (D : Digest H)
    (fs : FileSystem P) (fuel : Nat) (m : duplicate_map H P) :
    fullCheckLoop D fs fuel none m = some m := by
  cases fuel <;> rfl

theorem fullCheckLoop_succ {H P : Type} [LinearOrder H] [LinearOrder P] (D : Digest H)
    (fs : FileSystem P) (fuel : Nat) (key : H) (m : duplicate_map H P) :
    fullCheckLoop D fs (fuel + 1) (some key) m
      = fullCheckLoop D fs fuel
          (nextKey key ((mapGet key m).foldl (recheckStep D fs key) m))
          ((mapGet key m).foldl (recheckStep D fs key) m) := by
  rw [fullCheckLoop, recheckGroup_eq]

/-- The outer loop of the full check ends within its budget, and when it ends every entry is
stored under the hash of its whole content. `U` bounds the keys that can occur and `F` the
entries; the keys below the iterator position are settled. -/
theorem fullCheckLoop_spec {H P : Type} [LinearOrder H] [LinearOrder P] (D : Digest H)
    (fs : FileSystem P) (U : List H) (F : List P) (hF : ∀ e ∈ F, fullHash D fs e ∈ U) :
    ∀ (fuel : Nat) (pos : Option H) (m : duplicate_map H P), Canonical m →
      (∀ k ∈ keys m, k ∈ U) → (∀ k, ∀ e ∈ mapGet k m, e ∈ F) →
      (∀ key, pos = some key → key ∈ keys m ∧ U.countP (fun u => decide (key < u)) < fuel) →
      (∀ k, (∀ key, pos = some key → k < key) → Settled D fs m k) →
      ∃ r, fullCheckLoop D fs fuel pos m = some r ∧ Canonical r
        ∧ (∀ k, Settled D fs r k) ∧ (∀ k, ∀ e ∈ mapGet k r, e ∈ F) := by
  intro fuel
  induction fuel with
  | zero =>
    intro pos m hm _ hmF hpos hset
    cases pos with
    | none =>
      exact ⟨m, fullCheckLoop_none D fs 0 m, hm,
        fun k => hset k (fun key hk => by simp at hk), hmF⟩
    | some key => exact absurd (hpos key rfl).2 (Nat.not_lt_zero _)
  | succ fuel ih =>
    intro pos m hm hmU hmF hpos hset
    cases pos with
    | none =>
      exact ⟨m, fullCheckLoop_none D fs _ m, hm,
        fun k => hset k (fun key hk => by simp at hk), hmF⟩
    | some key =>
      obtain ⟨hkey, hcount⟩ := hpos key rfl
      obtain ⟨hc, hk, hself, hother⟩ := recheckFold_spec D fs key (mapGet key m) m hm
      rw [fullCheckLoop_succ]
      apply ih
      · exact hc
      · intro k hkin
        rcases hk k hkin with h | h | ⟨x, hx, h⟩
        · exact hmU k h
        · rw [h]; exact hmU key hkey
        · rw [h]; exact hF x (hmF key x hx)
      · intro k e he
        by_cases hkk : k = key
        · rw [hkk] at he
          exact hmF key e ((hself e).mp he).1
        · rcases (hother k e hkk).mp he with h | h
          · exact hmF k e h
          · exact hmF key e h.1
      · intro key' hnext
        obtain ⟨h1, h2, _⟩ := nextKey_eq_some key key' _ hc.1 hnext
        refine ⟨h1, ?_⟩
        have hlt : U.countP (fun u => decide (key' < u)) < U.countP (fun u => decide (key < u)) := by
          apply countP_lt_countP
          · intro x hx
            simp only [decide_eq_true_eq] at hx ⊢
            exact lt_trans h2 hx
          · refine ⟨key', ?_, by simpa using h2, by simp⟩
            rcases hk key' h1 with h | h | ⟨x, hx, h⟩
            · exact hmU key' h
            · rw [h]; exact hmU key hkey
            · rw [h]; exact hF x (hmF key x hx)
        omega
      · intro k hbelow
        have hsettled_of_old : k ≠ key → Settled D fs m k →
            Settled D fs ((mapGet key m).foldl (recheckStep D fs key) m) k := by
          intro hkk hold e he
          rcases (hother k e hkk).mp he with h | h
          · exact hold e h
          · exact h.2
        have hsettled_key :
            Settled D fs ((mapGet key m).foldl (recheckStep D fs key) m) key := by
          intro e he
          obtain ⟨h1, h2⟩ := (hself e).mp he
          by_contra hne
          exact h2 ⟨h1, hne⟩
        rcases lt_trichotomy k key with hlt | heq | hgt
        · exact hsettled_of_old (ne_of_lt hlt)
            (hset k (fun key' hk' => by rw [Option.some.injEq] at hk'; rw [← hk']; exact hlt))
        · rw [heq]; exact hsettled_key
        · -- a key strictly between the position and the next position is not in the map
          have hnot : k ∉ keys ((mapGet key m).foldl (recheckStep D fs key) m) := by
            intro hkin
            cases hn : nextKey key ((mapGet key m).foldl (recheckStep D fs key) m) with
            | none => exact nextKey_eq_none key _ hn k hkin hgt
            | some key' =>
              obtain ⟨_, _, hmin⟩ := nextKey_eq_some key key' _ hc.1 hn
              exact absurd (hbelow key' hn) (not_lt.mpr (hmin k hkin hgt))
          intro e he
          rw [mapGet_of_not_mem_keys k _ hnot] at he
          simp at he

theorem mem_entriesOf_of_mem_mapGet {H P : Type} [LinearOrder H] (m : duplicate_map H P)
    (k : H) (e : P) (he : e ∈ mapGet k m) : e ∈ entriesOf m := by
  by_cases hk : k ∈ m.map Prod.fst
  · have hmem := mapGet_mem_of_mem_keys k m hk
    unfold entriesOf
    rw [List.mem_flatten]
    exact ⟨_, List.mem_map_of_mem Prod.snd hmem, he⟩
  · rw [mapGet_of_not_mem_keys k m hk] at he
    simp at he

theorem length_entriesOf {H P : Type} (m : duplicate_map H P) :
    (entriesOf m).length = (m.map (fun t => t.2.length)).sum := by
  unfold entriesOf
  rw [List.length_flatten, List.map_map]
  rfl

/-- The block `if (full) { ... }` on a canonical map: it returns a map, the map is canonical,
every group has more than one entry and every entry is an entry of the candidate map stored
under the hash of its whole content. -/
theorem fullCheck_spec {H P : Type} [LinearOrder H] [LinearOrder P] (D : Digest H)
    (fs : FileSystem P) (m : duplicate_map H P) (hm : Canonical m) :
    ∃ r, fullCheck D fs m = some r ∧ Canonical r ∧ (∀ t ∈ r, 1 < t.2.length)
      ∧ (∀ t ∈ r, ∀ e ∈ t.2, fullHash D fs e = t.1 ∧ e ∈ entriesOf m) := by
  have hloop := fullCheckLoop_spec D fs (keys m ++ (entriesOf m).map (fullHash D fs))
    (entriesOf m)
    (fun e he => List.mem_append_right _ (List.mem_map_of_mem _ he))
    (m.length + (m.map (fun t => t.2.length)).sum) (firstKey m) m hm
    (fun k hk => List.mem_append_left _ hk)
    (fun k e he => mem_entriesOf_of_mem_mapGet m k e he)
    (by
      intro key hkey
      cases m with
      | nil => simp [firstKey] at hkey
      | cons t rest =>
        simp only [firstKey, List.head?_cons, Option.map_some', Option.some.injEq] at hkey
        subst hkey
        refine ⟨by simp [keys], ?_⟩
        have hlen : (keys (t :: rest) ++ (entriesOf (t :: rest)).map (fullHash D fs)).length
            = (t :: rest).length + ((t :: rest).map (fun t => t.2.length)).sum := by
          rw [List.length_append, List.length_map, length_entriesOf]
          simp [keys]
        rw [← hlen]
        apply countP_lt_length
        exact ⟨t.1, by simp [keys], by simp⟩)
    (by
      intro k hbelow e he
      cases m with
      | nil => simp [mapGet] at he
      | cons t rest =>
        have hlt : k < t.1 := hbelow t.1 (by simp [firstKey])
        have hnot : k ∉ (t :: rest).map Prod.fst := by
          intro hkin
          have hs := hm.1
          unfold keys at hs
          rw [List.map_cons] at hs hkin
          rcases List.mem_cons.mp hkin with h | h
          · exact absurd hlt (by rw [h]; exact lt_irrefl _)
          · exact absurd (lt_trans hlt ((List.sorted_cons.mp hs).1 k h)) (lt_irrefl _)
        rw [mapGet_of_not_mem_keys k _ hnot] at he
        simp at he)
  obtain ⟨r, hr, hcan, hsettled, hin⟩ := hloop
  refine ⟨keepDuplicates r, by unfold fullCheck; rw [hr]; rfl,
    canonical_keepDuplicates r hcan, ?_, ?_⟩
  · intro t ht
    exact ((mem_keepDuplicates r t).mp ht).2
  · intro t ht e he
    have htr := ((mem_keepDuplicates r t).mp ht).1
    have hget := mapGet_eq_of_mem r hcan.1 t htr
    have he' : e ∈ mapGet t.1 r := by rw [hget]; exact he
    exact ⟨hsettled t.1 e he', hin t.1 e he'⟩


/-! ### The MD5 model against the test suite of RFC 1321 -/

/-- The digests of `""`, `"a"`, `"abc"`, `"message digest"`, of the lower-case alphabet, of the
62 letters and digits and of eight times `"1234567890"` are those listed in RFC 1321,
appendix A.5. -/
theorem md5_test_suite :
    MD5.md5 [] = 0xd41d8cd98f00b204e9800998ecf8427e
      ∧ MD5.md5 [97] = 0x0cc175b9c0f1b6a831c399e269772661
      ∧ MD5.md5 [97, 98, 99] = 0x900150983cd24fb0d6963f7d28e17f72
      ∧ MD5.md5 [109, 101, 115, 115, 97, 103, 101, 32, 100, 105, 103, 101, 115, 116]
          = 0xf96b697d7cb7938d525a2f31aaf161d0
      ∧ MD5.md5 [97, 98, 99, 100, 101, 102, 103, 104, 105, 106, 107, 108, 109, 110, 111, 112,
          113, 114, 115, 116, 117, 118, 119, 120, 121, 122]
          = 0xc3fcd3d76192e4007dfb496cca67e13b
      ∧ MD5.md5 [65, 66, 67, 68, 69, 70, 71, 72, 73, 74, 75, 76, 77, 78, 79, 80, 81, 82, 83,
          84, 85, 86, 87, 88, 89, 90, 97, 98, 99, 100, 101, 102, 103, 104, 105, 106, 107, 108,
          109, 110, 111, 112, 113, 114, 115, 116, 117, 118, 119, 120, 121, 122, 48, 49, 50, 51,
          52, 53, 54, 55, 56, 57]
          = 0xd174ab98d277d9f5a5611c2c9f419d9f
      ∧ MD5.md5 ((List.replicate 8 [49, 50, 51, 52, 53, 54, 55, 56, 57, 48]).flatten)
          = 0x57edf4a22be3c955ac49da2e2107b67a := by
  decide!


/-! ### Statements on `calculateFileHash` -/

/-- Claim C1. The hash of a readable file. For every content, every limit (a `u_int`) and both
values of `full`, `calculateFileHash` on a file that opens and delivers `content` returns the
digest of the whole content when `full` is set, whatever the limit, and the digest of the
first `min limit content.length` bytes otherwise. -/
theorem C1_hash_of_content {H P : Type} (D : Digest H) (fs : FileSystem P) (file : P)
    (content : List Byte) (limit : Nat) (full : Bool)
    (hopen : fs.open_stream file = { good := true, pending := content, failing := false })
    (hlimit : limit < u_int_range) :
    calculateFileHash D fs file limit full
      = some (if full = true then D.digest content
          else D.digest (content.take (min limit content.length))) := by
  rw [calculateFileHash_eq D fs file limit full hlimit, hopen]
  cases full with
  | true => rfl
  | false =>
    simp only [ifstream.delivered, if_true, Bool.false_eq_true, if_false]
    rcases Nat.le_total limit content.length with h | h
    · rw [Nat.min_eq_left h]
    · rw [Nat.min_eq_right h, List.take_of_length_le h, List.take_length]

/-- Witness of claim C1: the file `c` of `sampleFs` with limit 2. -/
theorem C1_hash_of_content_witness :
    sampleFs.open_stream ['c'] = { good := true, pending := [1, 2, 3, 4], failing := false }
      ∧ 2 < u_int_range
      ∧ calculateFileHash md5Digest sampleFs ['c'] 2 false
          = some (if false = true then md5Digest.digest [1, 2, 3, 4]
              else md5Digest.digest (([1, 2, 3, 4] : List Byte).take
                (min 2 ([1, 2, 3, 4] : List Byte).length))) :=
  ⟨rfl, by decide,
    C1_hash_of_content md5Digest sampleFs ['c'] [1, 2, 3, 4] 2 false rfl (by decide)⟩

theorem delivered_of_not_good (input : ifstream) (h : input.good = false) :
    input.delivered = [] := by
  unfold ifstream.delivered
  rw [h]
  rfl

theorem delivered_of_failing (input : ifstream) (hg : input.good = true)
    (hf : input.failing = true) :
    input.delivered
      = input.pending.take (bufferSize * (input.pending.length / bufferSize)) := by
  unfold ifstream.delivered
  rw [if_pos hg, if_pos hf]

theorem delivered_of_readsToEnd {P : Type} (fs : FileSystem P) (entry : P)
    (h : readsToEnd fs entry) : (fs.open_stream entry).delivered = fs.content entry := by
  unfold readsToEnd at h
  rw [h]
  rfl

theorem length_firstChunk : firstChunk.length = 10240 := by
  unfold firstChunk
  exact List.length_replicate _ _

/-- Counterexample to claim C8 as stated, on the three files of `unreadableFs`. The file `a`
cannot be opened, and `calculateFileHash` returns a hash for it, the MD5 digest of the empty
sequence. Reading the file `b` fails in the first chunk, and the same hash is returned. Reading
the file `c` fails in the second chunk, and the hash returned is the digest of the first chunk
of 10240 bytes, the bytes read before the failure. -/
theorem C8_counterexample :
    (unreadableFs.open_stream ['a']).good = false
      ∧ calculateFileHash md5Digest unreadableFs ['a'] smallCheckSize false
          = some 0xd41d8cd98f00b204e9800998ecf8427e
      ∧ unreadableFs.open_stream ['b']
          = { good := true, pending := [97, 98, 99], failing := true }
      ∧ calculateFileHash md5Digest unreadableFs ['b'] smallCheckSize false
          = some 0xd41d8cd98f00b204e9800998ecf8427e
      ∧ unreadableFs.open_stream ['c']
          = { good := true, pending := firstChunk ++ [98, 99], failing := true }
      ∧ calculateFileHash md5Digest unreadableFs ['c'] smallCheckSize false
          = some (md5Digest.digest firstChunk) := by
  refine ⟨rfl, by decide!, rfl, by decide!, rfl, ?_⟩
  have hopen : unreadableFs.open_stream ['c']
      = { good := true, pending := firstChunk ++ [98, 99], failing := true } := rfl
  have hchunks : bufferSize * ((firstChunk ++ [98, 99]).length / bufferSize) = 10240 := by
    rw [List.length_append, length_firstChunk]
    decide
  rw [calculateFileHash_eq md5Digest unreadableFs ['c'] smallCheckSize false smallCheckSize_lt,
    hopen, delivered_of_failing _ rfl rfl, if_neg Bool.false_ne_true]
  simp only
  rw [hchunks, List.take_left' length_firstChunk,
    List.take_of_length_le (by rw [length_firstChunk]; decide)]

/-- Claim C8, amended. `calculateFileHash` has no failure path: for every file, whatever the state
of its stream, it returns a hash. For a file that cannot be opened this is the digest of the
empty sequence. For a file that opens and whose reading fails it is the digest of the complete
chunks of 10240 bytes that precede the read error, cut at `limit` unless `full` is set; the
bytes of the chunk in which the error occurs are left out. -/
theorem C8_failed_read_returns_hash {H P : Type} (D : Digest H) (fs : FileSystem P)
    (file : P) (limit : Nat) (full : Bool) (hlimit : limit < u_int_range) :
    calculateFileHash D fs file limit full
        = some (D.digest (if full = true then (fs.open_stream file).delivered
            else (fs.open_stream file).delivered.take limit))
      ∧ ((fs.open_stream file).good = false →
          calculateFileHash D fs file limit full = some (D.digest []))
      ∧ ((fs.open_stream file).good = true → (fs.open_stream file).failing = true →
          calculateFileHash D fs file limit full
            = some (D.digest (if full = true then
                (fs.open_stream file).pending.take
                  (bufferSize * ((fs.open_stream file).pending.length / bufferSize))
              else ((fs.open_stream file).pending.take
                  (bufferSize * ((fs.open_stream file).pending.length / bufferSize))).take
                    limit))) := by
  have h := calculateFileHash_eq D fs file limit full hlimit
  refine ⟨h, ?_, ?_⟩
  · intro hbad
    rw [h, delivered_of_not_good _ hbad]
    cases full <;> simp
  · intro hg hf
    rw [h, delivered_of_failing _ hg hf]

/-- Witness of claim C8, amended: the file `a` of `unreadableFs`, which cannot be opened, and
the file `c`, whose reading fails in the second chunk. -/
theorem C8_failed_read_returns_hash_witness :
    smallCheckSize < u_int_range
      ∧ calculateFileHash md5Digest unreadableFs ['a'] smallCheckSize false
          = some (md5Digest.digest [])
      ∧ calculateFileHash md5Digest unreadableFs ['c'] smallCheckSize false
          = some (md5Digest.digest (if false = true then
                (unreadableFs.open_stream ['c']).pending.take
                  (bufferSize * ((unreadableFs.open_stream ['c']).pending.length / bufferSize))
              else ((unreadableFs.open_stream ['c']).pending.take
                  (bufferSize
                    * ((unreadableFs.open_stream ['c']).pending.length / bufferSize))).take
                    smallCheckSize)) :=
  ⟨by decide,
    (C8_failed_read_returns_hash md5Digest unreadableFs ['a'] smallCheckSize false
      (by decide)).2.1 rfl,
    (C8_failed_read_returns_hash md5Digest unreadableFs ['c'] smallCheckSize false
      (by decide)).2.2 rfl rfl⟩

/-! ### Statements on the result of `findDuplicates` -/

theorem canonical_candidates {H P : Type} [LinearOrder H] [LinearOrder P] (D : Digest H)
    (fs : FileSystem P) (threadNumber : Nat) (ignored : List (List Char)) :
    Canonical (keepDuplicates (scanResults D fs threadNumber ignored)) :=
  canonical_keepDuplicates _ (canonical_mergeJobs _)

/-- Counterexample to claim C3 as stated, on the two files of `lockedFs`, which hold
different bytes and cannot be opened. Both are hashed to the MD5 digest of the empty sequence
by the prefix scan and by the full check, so `findDuplicates` with `full = true` reports them
in one group. The digest has no collision on their contents, the key of the group is not the
digest of the content of `u`, and the two files are not identical. -/
theorem C3_counterexample :
    findDuplicates md5Digest lockedFs true 1 []
        = some [(0xd41d8cd98f00b204e9800998ecf8427e, [['u'], ['v']])]
      ∧ fullCheck md5Digest lockedFs [(0xd41d8cd98f00b204e9800998ecf8427e, [['u'], ['v']])]
        = some [(0xd41d8cd98f00b204e9800998ecf8427e, [['u'], ['v']])]
      ∧ (∀ e₁ ∈ entriesOf ([(0xd41d8cd98f00b204e9800998ecf8427e, [['u'], ['v']])]
            : duplicate_map Nat (List Char)),
          ∀ e₂ ∈ entriesOf ([(0xd41d8cd98f00b204e9800998ecf8427e, [['u'], ['v']])]
            : duplicate_map Nat (List Char)),
          md5Digest.digest (lockedFs.content e₁) = md5Digest.digest (lockedFs.content e₂) →
          lockedFs.content e₁ = lockedFs.content e₂)
      ∧ md5Digest.digest (lockedFs.content ['u']) ≠ 0xd41d8cd98f00b204e9800998ecf8427e
      ∧ lockedFs.content ['u'] ≠ lockedFs.content ['v'] := by
  decide!

/-- Claim C3, amended. For every candidate map (a canonical map), the block `if (full) { ... }`
returns a map in which every file of every group has the key of the group as the hash that
`calculateFileHash` computes for it with `full = true`; for a file that opens and is read to
its end without error the key is the digest of its whole content. Hence, if the digest
separates the contents of the files of the candidate map, two files of one group that open and
are read to their end without error hold the same bytes. -/
theorem C3_full_check_exact {H P : Type} [LinearOrder H] [LinearOrder P] (D : Digest H)
    (fs : FileSystem P) (candidates : duplicate_map H P) (hcan : Canonical candidates) :
    ∃ r, fullCheck D fs candidates = some r
      ∧ (∀ t ∈ r, ∀ e ∈ t.2, calculateFileHash D fs e 0 true = some t.1)
      ∧ (∀ t ∈ r, ∀ e ∈ t.2, readsToEnd fs e → t.1 = D.digest (fs.content e))
      ∧ ((∀ e₁ ∈ entriesOf candidates, ∀ e₂ ∈ entriesOf candidates,
            D.digest (fs.content e₁) = D.digest (fs.content e₂) →
            fs.content e₁ = fs.content e₂) →
          ∀ t ∈ r, ∀ e₁ ∈ t.2, ∀ e₂ ∈ t.2, readsToEnd fs e₁ → readsToEnd fs e₂ →
            fs.content e₁ = fs.content e₂) := by
  obtain ⟨r, hr, _, _, hexact⟩ := fullCheck_spec D fs candidates hcan
  have hkey : ∀ t ∈ r, ∀ e ∈ t.2, readsToEnd fs e → t.1 = D.digest (fs.content e) := by
    intro t ht e he hread
    rw [← (hexact t ht e he).1, fullHash, delivered_of_readsToEnd fs e hread]
  refine ⟨r, hr, ?_, hkey, ?_⟩
  · intro t ht e he
    rw [calculateFileHash_full, (hexact t ht e he).1]
  · intro hinj t ht e₁ he₁ e₂ he₂ hread₁ hread₂
    exact hinj e₁ (hexact t ht e₁ he₁).2 e₂ (hexact t ht e₂ he₂).2
      ((hkey t ht e₁ he₁ hread₁).symm.trans (hkey t ht e₂ he₂ hread₂))

/-- Witness of claim C3, amended: a candidate group of the three files `a`, `b`, `c` of
`sampleFs`, which open and are read to their end. -/
theorem C3_full_check_exact_witness :
    Canonical ([(5, [['a'], ['b'], ['c']])] : duplicate_map Nat (List Char))
      ∧ readsToEnd sampleFs ['a'] ∧ readsToEnd sampleFs ['b'] ∧ readsToEnd sampleFs ['c']
      ∧ ∃ r, fullCheck md5Digest sampleFs [(5, [['a'], ['b'], ['c']])] = some r
          ∧ (∀ t ∈ r, ∀ e ∈ t.2, calculateFileHash md5Digest sampleFs e 0 true = some t.1)
          ∧ ∀ t ∈ r, ∀ e ∈ t.2, readsToEnd sampleFs e →
              t.1 = md5Digest.digest (sampleFs.content e) := by
  have hcan : Canonical ([(5, [['a'], ['b'], ['c']])] : duplicate_map Nat (List Char)) := by
    unfold Canonical keys
    decide
  obtain ⟨r, hr, h, hkey, _⟩ := C3_full_check_exact md5Digest sampleFs _ hcan
  exact ⟨hcan, rfl, rfl, rfl, r, hr, h, hkey⟩

/-- Claim C4. Every reported group has at least two files. For every file system, ignore set,
thread number `N ≥ 1` and both values of `full`, `findDuplicates` returns a map, and every
group of it holds at least two pairwise distinct entries. -/
theorem C4_groups_have_two_files {H P : Type} [LinearOrder H] [LinearOrder P] (D : Digest H)
    (fs : FileSystem P) (full : Bool) (threadNumber : Nat) (ignored : List (List Char))
    (hN : 1 ≤ threadNumber) :
    ∃ r, findDuplicates D fs full threadNumber ignored = some r
      ∧ ∀ t ∈ r, 2 ≤ t.2.length ∧ t.2.Nodup := by
  have _ := hN
  rw [findDuplicates_eq]
  cases full with
  | false =>
    refine ⟨keepDuplicates (scanResults D fs threadNumber ignored), by simp, ?_⟩
    intro t ht
    exact ⟨((mem_keepDuplicates _ t).mp ht).2,
      ((canonical_candidates D fs threadNumber ignored).2 t ht).nodup⟩
  | true =>
    obtain ⟨r, hr, hcan, hlen, _⟩ :=
      fullCheck_spec D fs _ (canonical_candidates D fs threadNumber ignored)
    refine ⟨r, by simpa using hr, ?_⟩
    intro t ht
    exact ⟨hlen t ht, (hcan.2 t ht).nodup⟩

/-- Witness of claim C4: `sampleFs` with the full check and two threads. -/
theorem C4_groups_have_two_files_witness :
    1 ≤ 2 ∧ ∃ r, findDuplicates md5Digest sampleFs true 2 [['.', 't', 'm', 'p']] = some r
      ∧ ∀ t ∈ r, 2 ≤ t.2.length ∧ t.2.Nodup :=
  ⟨by decide, C4_groups_have_two_files md5Digest sampleFs true 2 [['.', 't', 'm', 'p']]
    (by decide)⟩


/-! ### The scenario with the files `A`, `B`, `C` -/

theorem mapGet_keepDuplicates {H P : Type} [LinearOrder H] (m : duplicate_map H P)
    (hm : (m.map Prod.fst).Sorted (· < ·)) (k : H) :
    mapGet k (keepDuplicates m) = if 1 < (mapGet k m).length then mapGet k m else [] := by
  by_cases hk : k ∈ (keepDuplicates m).map Prod.fst
  · have hin := mapGet_mem_of_mem_keys k _ hk
    rw [mem_keepDuplicates] at hin
    have hget := mapGet_eq_of_mem m hm _ hin.1
    simp only at hget hin
    rw [hget, if_pos hin.2]
  · rw [mapGet_of_not_mem_keys k _ hk]
    split
    · rename_i hlen
      exfalso
      apply hk
      have hkm : k ∈ m.map Prod.fst := by
        by_contra hnot
        rw [mapGet_of_not_mem_keys k m hnot] at hlen
        simp at hlen
      have hin := mapGet_mem_of_mem_keys k m hkm
      exact List.mem_map_of_mem Prod.fst ((mem_keepDuplicates m _).mpr ⟨hin, hlen⟩)
    · rfl

/-- Two canonical maps without empty groups and with the same members at every key are
equal. -/
theorem canonical_ext_of_nonempty {H P : Type} [LinearOrder H] [LinearOrder P]
    {m₁ m₂ : duplicate_map H P} (h₁ : Canonical m₁) (h₂ : Canonical m₂)
    (hne₁ : ∀ t ∈ m₁, t.2 ≠ []) (hne₂ : ∀ t ∈ m₂, t.2 ≠ [])
    (hmem : ∀ k x, x ∈ mapGet k m₁ ↔ x ∈ mapGet k m₂) : m₁ = m₂ := by
  have key : ∀ (a b : duplicate_map H P), (∀ t ∈ a, t.2 ≠ []) →
      (∀ k x, x ∈ mapGet k a → x ∈ mapGet k b) → ∀ k, k ∈ keys a → k ∈ keys b := by
    intro a b hne hab k hk
    have hin := mapGet_mem_of_mem_keys k a hk
    obtain ⟨x, hx⟩ := List.exists_mem_of_ne_nil _ (hne _ hin)
    have hxb := hab k x hx
    by_contra hnot
    rw [mapGet_of_not_mem_keys k b hnot] at hxb
    simp at hxb
  exact canonical_ext h₁ h₂
    (fun k => ⟨key m₁ m₂ hne₁ (fun k x => (hmem k x).mp) k,
      key m₂ m₁ hne₂ (fun k x => (hmem k x).mpr) k⟩) hmem

theorem keepDuplicates_ne_nil {H P : Type} (m : duplicate_map H P) :
    ∀ t ∈ keepDuplicates m, t.2 ≠ [] := by
  intro t ht hnil
  have := ((mem_keepDuplicates m t).mp ht).2
  rw [hnil] at this
  simp at this

theorem mem_scannedEntries_scenarioFs (listing : List (List Char)) (x : List Char) :
    x ∈ scannedEntries (scenarioFs listing) ↔ x ∈ listing := by
  simp [scannedEntries, scenarioFs]

theorem length_contentA : contentA.length = 50000 := by
  unfold contentA
  exact List.length_replicate _ _

theorem length_contentC : contentC.length = 50001 := by
  unfold contentC
  rw [List.length_append, List.length_replicate]
  rfl

theorem prefixHash_scenarioFs {H : Type} (D : Digest H) (listing : List (List Char))
    (x : List Char) :
    prefixHash D (scenarioFs listing) x
      = if x = ['C'] then D.digest contentC else D.digest contentA := by
  unfold prefixHash scenarioFs
  simp only
  split
  · rw [ifstream.delivered, if_pos rfl, if_neg (by decide), List.take_of_length_le]
    rw [length_contentC]
    decide
  · rw [ifstream.delivered, if_pos rfl, if_neg (by decide), List.take_of_length_le]
    rw [length_contentA]
    decide

/-- The scenario for any digest that separates the two contents: the only group is `{A, B}`. -/
theorem scenario_result {H : Type} [LinearOrder H] (D : Digest H)
    (listing : List (List Char)) (hperm : listing.Perm [['A'], ['B'], ['C']])
    (threadNumber : Nat) (hN : 1 ≤ threadNumber) (ignored : List (List Char))
    (hig : [] ∉ ignored) (hsep : D.digest contentA ≠ D.digest contentC) :
    findDuplicates D (scenarioFs listing) false threadNumber ignored
      = some [(D.digest contentA, [['A'], ['B']])] := by
  obtain ⟨hcan, _, hmem⟩ := results_spec D (scenarioFs listing) threadNumber ignored hN
  have hel : ∀ x, eligible (scenarioFs listing) ignored x := fun x => ⟨rfl, hig⟩
  have hmem' : ∀ k x, x ∈ mapGet k (scanResults D (scenarioFs listing) threadNumber ignored)
      ↔ (x = ['A'] ∨ x = ['B'] ∨ x = ['C'])
        ∧ (if x = ['C'] then D.digest contentC else D.digest contentA) = k := by
    intro k x
    rw [hmem k x, mem_scannedEntries_scenarioFs, hperm.mem_iff, prefixHash_scenarioFs]
    simp only [List.mem_cons, List.mem_singleton, List.not_mem_nil, or_false]
    constructor
    · rintro ⟨h1, _, h3⟩; exact ⟨h1, h3⟩
    · rintro ⟨h1, h3⟩; exact ⟨h1, hel x, h3⟩
  have hAC : (['A'] : List Char) ≠ ['C'] := by decide
  have hBC : (['B'] : List Char) ≠ ['C'] := by decide
  have hAB : (['A'] : List Char) ≠ ['B'] := by decide
  have hAin : ['A'] ∈ mapGet (D.digest contentA)
      (scanResults D (scenarioFs listing) threadNumber ignored) :=
    (hmem' _ _).mpr ⟨Or.inl rfl, by rw [if_neg hAC]⟩
  have hBin : ['B'] ∈ mapGet (D.digest contentA)
      (scanResults D (scenarioFs listing) threadNumber ignored) :=
    (hmem' _ _).mpr ⟨Or.inr (Or.inl rfl), by rw [if_neg hBC]⟩
  rw [findDuplicates_eq]
  simp only [Bool.false_eq_true, if_false, Option.some.injEq]
  have hcanR : Canonical ([(D.digest contentA, [['A'], ['B']])]
      : duplicate_map H (List Char)) := by
    constructor
    · simp [keys]
    · intro t ht
      rw [List.mem_singleton] at ht
      rw [ht]
      simp only [List.Sorted, List.pairwise_cons, List.mem_singleton, forall_eq,
        List.not_mem_nil, false_implies, implies_true, List.Pairwise.nil, and_true]
      decide
  apply canonical_ext_of_nonempty (canonical_candidates D _ threadNumber ignored) hcanR
    (keepDuplicates_ne_nil _)
  · intro t ht
    rw [List.mem_singleton] at ht
    rw [ht]
    simp
  · intro k x
    rw [mapGet_keepDuplicates _ hcan.1]
    have hR : x ∈ mapGet k ([(D.digest contentA, [['A'], ['B']])]
        : duplicate_map H (List Char)) ↔ k = D.digest contentA ∧ (x = ['A'] ∨ x = ['B']) := by
      simp only [mapGet]
      by_cases hk : k = D.digest contentA
      · simp [hk]
      · simp [hk]
    rw [hR]
    have hnodup := (sorted_mapGet k _ hcan.2).nodup
    constructor
    · intro hx
      split at hx
      · rename_i hlen
        have hx' := (hmem' k x).mp hx
        obtain ⟨b, hb, hbne⟩ := (one_lt_length_iff_exists_ne _ hnodup x hx).mp hlen
        have hb' := (hmem' k b).mp hb
        by_cases hxC : x = ['C']
        · exfalso
          rw [if_pos hxC] at hx'
          have hbC : b ≠ ['C'] := fun h => hbne (h.trans hxC.symm)
          rw [if_neg hbC] at hb'
          exact hsep (hb'.2.trans hx'.2.symm)
        · rw [if_neg hxC] at hx'
          refine ⟨hx'.2.symm, ?_⟩
          rcases hx'.1 with h | h | h
          · exact Or.inl h
          · exact Or.inr h
          · exact absurd h hxC
      · simp at hx
    · rintro ⟨hk, hx⟩
      subst hk
      have hlen : 1 < (mapGet (D.digest contentA)
          (scanResults D (scenarioFs listing) threadNumber ignored)).length :=
        (one_lt_length_iff_exists_ne _ hnodup ['A'] hAin).mpr ⟨['B'], hBin, hAB.symm⟩
      rw [if_pos hlen]
      rcases hx with h | h
      · rw [h]; exact hAin
      · rw [h]; exact hBin

/-! ### The MD5 digests of the contents of the scenario

The contents are long, so the state after the 781 blocks that the two contents have in common
is computed in four pieces. -/

theorem strict_eq {β : Type} (x : Nat) (k : Nat → β) : MD5.strict x k = k x := by
  cases x <;> rfl

theorem absorb_append (l₁ l₂ : List Nat) :
    ∀ (st blk k n : Nat), MD5.absorb (l₁ ++ l₂) st blk k n
      = MD5.absorb l₂ (MD5.absorb l₁ st blk k n).1 (MD5.absorb l₁ st blk k n).2.1
          (MD5.absorb l₁ st blk k n).2.2.1 (MD5.absorb l₁ st blk k n).2.2.2 := by
  induction l₁ with
  | nil => intro st blk k n; rfl
  | cons b bs ih =>
    intro st blk k n
    rw [List.cons_append, MD5.absorb, MD5.absorb]
    simp only [strict_eq]
    split
    · exact ih _ _ _ _
    · exact ih _ _ _ _

theorem md5_blocks_200 :
    MD5.absorb (List.replicate 12800 120) MD5.initState 0 0 0
      = (169211527984417417721789440223046444626, 0, 0, 200) := by
  decide!

theorem md5_blocks_400 :
    MD5.absorb (List.replicate 12800 120) 169211527984417417721789440223046444626 0 0 200
      = (31099721628952161939490046341459326342, 0, 0, 400) := by
  decide!

theorem md5_blocks_600 :
    MD5.absorb (List.replicate 12800 120) 31099721628952161939490046341459326342 0 0 400
      = (18983836193485272213998846328761873690, 0, 0, 600) := by
  decide!

theorem md5_blocks_781 :
    MD5.absorb (List.replicate 11584 120) 18983836193485272213998846328761873690 0 0 600
      = (241566933984550262621607147517666324108, 0, 0, 781) := by
  decide!

/-- The state after the first 49984 bytes `'x'`, that is after 781 blocks. -/
theorem md5_common_blocks :
    MD5.absorb (List.replicate 49984 120) MD5.initState 0 0 0
      = (241566933984550262621607147517666324108, 0, 0, 781) := by
  have hsplit : List.replicate 49984 120
      = List.replicate 12800 120 ++ (List.replicate 12800 120
          ++ (List.replicate 12800 120 ++ List.replicate 11584 120)) := by
    rw [← List.replicate_add, ← List.replicate_add, ← List.replicate_add]
  rw [hsplit, absorb_append, md5_blocks_200, absorb_append, md5_blocks_400, absorb_append,
    md5_blocks_600, md5_blocks_781]

/-- The MD5 digests of the two contents of the scenario. -/
theorem md5_scenario_contents :
    MD5.md5 contentA = 0xcee2229b94417b1693618845d0eacc55
      ∧ MD5.md5 contentC = 0x7436d9d15793d533ceef21c051a7311c := by
  have hA : contentA = List.replicate 49984 120 ++ List.replicate 16 120 := by
    unfold contentA
    rw [← List.replicate_add]
  have hC : contentC = List.replicate 49984 120 ++ (List.replicate 16 120 ++ [121]) := by
    unfold contentC
    rw [← List.append_assoc, ← List.replicate_add]
  constructor
  · rw [hA, MD5.md5, absorb_append, md5_common_blocks]
    decide!
  · rw [hC, MD5.md5, absorb_append, md5_common_blocks]
    decide!


theorem md5Digest_digest (bytes : List Byte) : md5Digest.digest bytes = MD5.md5 bytes := by
  simp [Digest.digest, md5Digest]

theorem scenario_result_md5 (listing : List (List Char))
    (hperm : listing.Perm [['A'], ['B'], ['C']]) (threadNumber : Nat) (hN : 1 ≤ threadNumber)
    (ignored : List (List Char)) (hig : [] ∉ ignored) :
    findDuplicates md5Digest (scenarioFs listing) false threadNumber ignored
      = some [(0xcee2229b94417b1693618845d0eacc55, [['A'], ['B']])] := by
  have h := scenario_result md5Digest listing hperm threadNumber hN ignored hig (by
    rw [md5Digest_digest, md5Digest_digest, md5_scenario_contents.1, md5_scenario_contents.2]
    decide)
  rw [md5Digest_digest, md5_scenario_contents.1] at h
  exact h

/-- Counterexample to claim C9 as stated: with one thread and no ignored extension the scan of
the directory with `A`, `B`, `C` returns the single group `{A, B}`, keyed by the MD5 digest of
the 50000 bytes `'x'`, and not a group `{A, B, C}`. -/
theorem C9_counterexample :
    findDuplicates md5Digest (scenarioFs [['A'], ['B'], ['C']]) false 1 []
        = some [(0xcee2229b94417b1693618845d0eacc55, [['A'], ['B']])]
      ∧ ¬ ∃ h, findDuplicates md5Digest (scenarioFs [['A'], ['B'], ['C']]) false 1 []
          = some [(h, [['A'], ['B'], ['C']])] := by
  have h := scenario_result_md5 [['A'], ['B'], ['C']] (List.Perm.refl _) 1 (by decide) []
    (by simp)
  refine ⟨h, ?_⟩
  rintro ⟨k, hk⟩
  rw [h] at hk
  simp at hk

/-- Claim C9, amended. For the directory that holds exactly `A` and `B` (50000 bytes `'x'`) and
`C` (the same bytes followed by `'y'`), in any listing order, with any thread number `N ≥ 1`
and any ignore set without the empty extension, `findDuplicates` with `full = false` returns
exactly one group, and that group is `{A, B}`: the 50001 bytes of `C` lie within the prefix
limit, and their digest differs from the digest of the 50000 bytes of `A`. -/
theorem C9_scenario_group_is_A_B (listing : List (List Char))
    (hperm : listing.Perm [['A'], ['B'], ['C']]) (threadNumber : Nat) (hN : 1 ≤ threadNumber)
    (ignored : List (List Char)) (hig : [] ∉ ignored) :
    findDuplicates md5Digest (scenarioFs listing) false threadNumber ignored
      = some [(0xcee2229b94417b1693618845d0eacc55, [['A'], ['B']])] :=
  scenario_result_md5 listing hperm threadNumber hN ignored hig

/-- Witness of claim C9, amended: the listing `C, A, B` and four threads. -/
theorem C9_scenario_group_is_A_B_witness :
    [['C'], ['A'], ['B']].Perm [['A'], ['B'], ['C']] ∧ 1 ≤ 4
      ∧ ([] : List Char) ∉ ([['.', 'e', 'x', 'e']] : List (List Char))
      ∧ findDuplicates md5Digest (scenarioFs [['C'], ['A'], ['B']]) false 4
            [['.', 'e', 'x', 'e']]
          = some [(0xcee2229b94417b1693618845d0eacc55, [['A'], ['B']])] :=
  ⟨by decide, by decide, by decide,
    C9_scenario_group_is_A_B [['C'], ['A'], ['B']] (by decide) 4 (by decide)
      [['.', 'e', 'x', 'e']] (by decide)⟩


/-! ### The ignore list -/

theorem findDelimiter_none (view : List Char) (h : findDelimiter view = none) :
    ∀ c ∈ view, ¬ ((c == ';') = true) := by
  induction view with
  | nil => intro c hc; simp at hc
  | cons a rest ih =>
    rw [findDelimiter] at h
    split at h
    · simp at h
    · rename_i hne
      rw [Option.map_eq_none'] at h
      intro c hc
      rcases List.mem_cons.mp hc with hc | hc
      · rw [hc]; simpa using hne
      · exact ih h c hc

theorem findDelimiter_some (view : List Char) (pos : Nat) (h : findDelimiter view = some pos) :
    view = view.take pos ++ ';' :: view.drop (pos + 1)
      ∧ ∀ c ∈ view.take pos, ¬ ((c == ';') = true) := by
  induction view generalizing pos with
  | nil => simp [findDelimiter] at h
  | cons a rest ih =>
    rw [findDelimiter] at h
    split at h
    · rename_i heq
      rw [Option.some.injEq] at h
      subst h
      subst heq
      simp
    · rename_i hne
      rw [Option.map_eq_some'] at h
      obtain ⟨p, hp, hpos⟩ := h
      subst hpos
      obtain ⟨h1, h2⟩ := ih p hp
      constructor
      · rw [List.take_succ_cons, List.drop_succ_cons, List.cons_append, ← h1]
      · intro c hc
        rw [List.take_succ_cons] at hc
        rcases List.mem_cons.mp hc with hc | hc
        · rw [hc]; simpa using hne
        · exact h2 c hc

theorem parseIgnoredLoop_spec :
    ∀ (fuel : Nat) (view : List Char) (acc : List (List Char)), view.length < fuel →
      acc.Sorted (· < ·) →
      ∃ ignored, parseIgnoredLoop fuel view acc = some ignored ∧ ignored.Sorted (· < ·)
        ∧ ∀ x, x ∈ ignored ↔ x ∈ acc ∨ x ∈ view.splitOn ';' := by
  intro fuel
  induction fuel with
  | zero => intro view acc h; omega
  | succ fuel ih =>
    intro view acc hlen hacc
    rw [parseIgnoredLoop]
    cases hfind : findDelimiter view with
    | none =>
      refine ⟨_, rfl, sorted_setInsert _ _ hacc, ?_⟩
      intro x
      have hsingle : view.splitOn ';' = [view] :=
        List.splitOnP_eq_single _ _ (findDelimiter_none view hfind)
      rw [mem_setInsert, hsingle, List.mem_singleton]
      tauto
    | some pos =>
      obtain ⟨hview, hno⟩ := findDelimiter_some view pos hfind
      have hsplit : view.splitOn ';'
          = view.take pos :: (view.drop (pos + 1)).splitOn ';' := by
        conv_lhs => rw [hview]
        exact List.splitOnP_first _ _ hno ';' (by simp) _
      have hshort : (view.drop (pos + 1)).length < fuel := by
        rw [List.length_drop]
        have : view.length = (view.take pos ++ ';' :: view.drop (pos + 1)).length := by
          rw [← hview]
        rw [List.length_append, List.length_cons, List.length_drop] at this
        omega
      obtain ⟨ignored, hrun, hsorted, hmem⟩ :=
        ih (view.drop (pos + 1)) (setInsert (view.take pos) acc) hshort
          (sorted_setInsert _ _ hacc)
      refine ⟨ignored, hrun, hsorted, ?_⟩
      intro x
      rw [hmem x, mem_setInsert, hsplit, List.mem_cons]
      tauto

theorem splitOn_tail_mem_cons (c : Char) (s : List Char)
    (h : [] ∈ (s.splitOn ';').tail) : [] ∈ ((c :: s).splitOn ';').tail := by
  unfold List.splitOn at h ⊢
  rw [List.splitOnP_cons]
  split
  · exact List.mem_of_mem_tail h
  · cases hs : List.splitOnP (fun x => x == ';') s with
    | nil => rw [hs] at h; simp at h
    | cons a rest => rw [hs] at h; simpa [List.modifyHead] using h

theorem splitOn_tail_mem_append (a s : List Char) (h : [] ∈ (s.splitOn ';').tail) :
    [] ∈ ((a ++ s).splitOn ';').tail := by
  induction a with
  | nil => exact h
  | cons c a ih => exact splitOn_tail_mem_cons c _ ih

theorem eligible_of_mem_scanResults {H P : Type} [LinearOrder H] [LinearOrder P]
    (D : Digest H) (fs : FileSystem P) (threadNumber : Nat) (ignored : List (List Char))
    (k : H) (x : P) (hx : x ∈ mapGet k (scanResults D fs threadNumber ignored)) :
    eligible fs ignored x := by
  unfold scanResults at hx
  rw [mem_mapGet_mergeJobs] at hx
  obtain ⟨job, hjob, hex⟩ := hx
  obtain ⟨unit, _, rfl⟩ := List.mem_map.mp hjob
  obtain ⟨hc, _, hm⟩ := scanFold_spec D fs ignored unit ([] : duplicate_map H P) canonical_nil
  rw [exists_mem_iff_mem_mapGet _ hc.1, hm k x] at hex
  rcases hex with h | h
  · simp [mapGet] at h
  · exact h.2.1

/-- Every member of a group returned by `findDuplicates` passed the test of the scan loops. -/
theorem eligible_of_mem_findDuplicates {H P : Type} [LinearOrder H] [LinearOrder P]
    (D : Digest H) (fs : FileSystem P) (full : Bool) (threadNumber : Nat)
    (ignored : List (List Char)) (r : duplicate_map H P)
    (hr : findDuplicates D fs full threadNumber ignored = some r) :
    ∀ t ∈ r, ∀ e ∈ t.2, eligible fs ignored e := by
  have hcand : ∀ t ∈ keepDuplicates (scanResults D fs threadNumber ignored), ∀ e ∈ t.2,
      eligible fs ignored e := by
    intro t ht e he
    have htr := ((mem_keepDuplicates _ t).mp ht).1
    have hcanon : Canonical (scanResults D fs threadNumber ignored) := canonical_mergeJobs _
    have hget := mapGet_eq_of_mem (scanResults D fs threadNumber ignored) hcanon.1 t htr
    exact eligible_of_mem_scanResults D fs threadNumber ignored t.1 e (by
      rw [hget]; exact he)
  rw [findDuplicates_eq] at hr
  cases full with
  | false =>
    simp only [Bool.false_eq_true, if_false, Option.some.injEq] at hr
    rw [← hr]
    exact hcand
  | true =>
    simp only [if_true] at hr
    obtain ⟨r', hr', _, _, hexact⟩ :=
      fullCheck_spec D fs _ (canonical_candidates D fs threadNumber ignored)
    rw [hr', Option.some.injEq] at hr
    subst hr
    intro t ht e he
    have hin := (hexact t ht e he).2
    unfold entriesOf at hin
    rw [List.mem_flatten] at hin
    obtain ⟨l, hl, hel⟩ := hin
    obtain ⟨t', ht', rfl⟩ := List.mem_map.mp hl
    exact hcand t' ht' e hel

/-- Claim C10. The ignore set built by `main`. For every value `s` of `--ignore` the loop returns
a set whose elements are exactly the fields of `s` split at every `';'`; it contains the empty
string when `s` is empty, ends in `';'` or contains `";;"`; and when it contains the empty
string, an entry without extension is skipped by the scan loops and is in no group of
`findDuplicates`. For `".exe;.class"` the set is `{".class", ".exe"}`. -/
theorem C10_ignore_set_is_split (s : List Char) :
    (∃ ignored, parseIgnored s = some ignored ∧ ignored.Sorted (· < ·)
        ∧ (∀ x, x ∈ ignored ↔ x ∈ s.splitOn ';')
        ∧ ((s = [] ∨ s.getLast? = some ';' ∨ [';', ';'] <:+: s) → [] ∈ ignored)
        ∧ ([] ∈ ignored → ∀ {H P : Type} [LinearOrder H] [LinearOrder P] (D : Digest H)
            (fs : FileSystem P) (entry : P), fs.extension entry = [] →
              (∀ m, scanEntry D fs ignored m entry = some m)
              ∧ ∀ (full : Bool) (threadNumber : Nat) (r : duplicate_map H P),
                  findDuplicates D fs full threadNumber ignored = some r →
                  ∀ t ∈ r, entry ∉ t.2))
      ∧ parseIgnored ['.', 'e', 'x', 'e', ';', '.', 'c', 'l', 'a', 's', 's']
          = some [['.', 'c', 'l', 'a', 's', 's'], ['.', 'e', 'x', 'e']] := by
  refine ⟨?_, by decide⟩
  obtain ⟨ignored, hrun, hsorted, hmem⟩ :=
    parseIgnoredLoop_spec (s.length + 1) s [] (Nat.lt_succ_self _) List.sorted_nil
  have hmem' : ∀ x, x ∈ ignored ↔ x ∈ s.splitOn ';' := by
    intro x
    rw [hmem x]
    simp
  refine ⟨ignored, hrun, hsorted, hmem', ?_, ?_⟩
  · intro hcases
    rw [hmem']
    rcases hcases with h | h | h
    · rw [h]; simp
    · have hne : s ≠ [] := by
        intro hs; rw [hs] at h; simp at h
      have hs : s = s.dropLast ++ [';'] := by
        have h1 := List.dropLast_append_getLast hne
        have h2 : s.getLast hne = ';' := by
          rw [List.getLast?_eq_getLast s hne, Option.some.injEq] at h
          exact h
        rw [h2] at h1
        exact h1.symm
      rw [hs]
      exact List.mem_of_mem_tail (splitOn_tail_mem_append _ _ (by decide))
    · obtain ⟨a, b, hab⟩ := h
      rw [← hab, List.append_assoc]
      apply List.mem_of_mem_tail
      apply splitOn_tail_mem_append
      show [] ∈ ((';' :: ';' :: b).splitOn ';').tail
      unfold List.splitOn
      rw [List.splitOnP_cons, List.splitOnP_cons]
      simp
  · intro hnil H P _ _ D fs entry hext
    constructor
    · intro m
      unfold scanEntry
      rw [if_neg]
      rintro ⟨_, hnot⟩
      rw [hext] at hnot
      exact hnot hnil
    · intro full threadNumber r hr t ht hin
      have hel := eligible_of_mem_findDuplicates D fs full threadNumber ignored r hr t ht
        entry hin
      rw [eligible, hext] at hel
      exact hel.2 hnil


/-! ### The admission gate -/

/-- What the counter does bound: in every state reached from a state in which the counter
equals the number of launched jobs that have not yet decremented it, this is still so, and
that number is at most `threadNumber`. -/
theorem gate_counter_invariant (threadNumber : Nat) (hN : threadNumber < u_int_range)
    (events : List GateEvent) :
    ∀ (s s' : Gate), s.threads = s.launched → s.launched ≤ threadNumber →
      Gate.run threadNumber s events = some s' →
      s'.threads = s'.launched ∧ s'.launched ≤ threadNumber := by
  induction events with
  | nil =>
    intro s s' h1 h2 hrun
    rw [Gate.run, Option.some.injEq] at hrun
    subst hrun
    exact ⟨h1, h2⟩
  | cons e rest ih =>
    intro s s' h1 h2 hrun
    rw [Gate.run] at hrun
    cases hstep : Gate.step threadNumber s e with
    | none => rw [hstep] at hrun; simp at hrun
    | some s₁ =>
      rw [hstep] at hrun
      simp only at hrun
      have hinv : s₁.threads = s₁.launched ∧ s₁.launched ≤ threadNumber := by
        cases e with
        | launch =>
          rw [Gate.step] at hstep
          split at hstep
          · rename_i hc
            rw [Option.some.injEq] at hstep
            subst hstep
            simp only
            have hlt : s.launched < threadNumber := by
              rcases Nat.lt_or_ge s.launched threadNumber with h | h
              · exact h
              · exact absurd (h1.trans (Nat.le_antisymm h2 h)) hc.2
            rw [h1, Nat.mod_eq_of_lt (by omega)]
            exact ⟨rfl, hlt⟩
          · simp at hstep
        | enter =>
          rw [Gate.step] at hstep
          split at hstep
          · rename_i hc
            rw [Option.some.injEq] at hstep
            subst hstep
            simp only
            have hmod : (s.launched + u_int_range - 1) % u_int_range = s.launched - 1 := by
              have : s.launched + u_int_range - 1 = (s.launched - 1) + u_int_range := by omega
              rw [this, Nat.add_mod_right, Nat.mod_eq_of_lt (by omega)]
            rw [h1, hmod]
            exact ⟨rfl, by omega⟩
          · simp at hstep
        | finish =>
          rw [Gate.step] at hstep
          split at hstep
          · rw [Option.some.injEq] at hstep
            subst hstep
            exact ⟨h1, h2⟩
          · simp at hstep
      exact ih s₁ s' hinv.1 hinv.2 hrun

/-- Claim C6 fails on the code: with `threadNumber = 1` and two units, the first unit is launched
and decrements the counter on entry, so that `wait` launches the second unit while the first
one is still scanning; two units are then active, more than `threadNumber`. -/
theorem C6_active_units_exceed_bound :
    Gate.run 1 (Gate.initial 2) [GateEvent.launch, GateEvent.enter, GateEvent.launch]
        = some { threads := 1, waiting := 0, launched := 1, scanning := 1, finished := 0 }
      ∧ ¬ Gate.active
          { threads := 1, waiting := 0, launched := 1, scanning := 1, finished := 0 } ≤ 1 := by
  decide

/-! ### Witnesses -/

/-- Witness of claim C2: `sampleFs` with two threads and `.tmp` ignored. -/
theorem C2_prefix_scan_deterministic_witness :
    1 ≤ 2 ∧ ∃ r, findDuplicates md5Digest sampleFs false 2 [['.', 't', 'm', 'p']] = some r
      ∧ ∀ t ∈ r, ∀ t' ∈ r, ∀ f, f ∈ t.2 → f ∈ t'.2 → t = t' := by
  obtain ⟨r, hr, _, _, _, huniq⟩ :=
    C2_prefix_scan_deterministic md5Digest sampleFs [['.', 't', 'm', 'p']] 2 (by decide)
  exact ⟨by decide, r, hr, huniq⟩

/-- Witness of claim C5: two jobs that share a key, merged in both orders. -/
theorem C5_merge_permutation_invariant_witness :
    ([[(1, [['a']])], [(1, [['b']]), (2, [['c']])]] : List (duplicate_map Nat (List Char))).Perm
        [[(1, [['b']]), (2, [['c']])], [(1, [['a']])]]
      ∧ mergeJobs ([[(1, [['a']])], [(1, [['b']]), (2, [['c']])]]
            : List (duplicate_map Nat (List Char)))
          = mergeJobs [[(1, [['b']]), (2, [['c']])], [(1, [['a']])]] :=
  ⟨by decide, (C5_merge_permutation_invariant _ _ (by decide)).1⟩


end DuplicateFinder
